import Mathlib

/-!
# Verification of `flax/nn/linear.py`

A shallow embedding of the linear modules of `flax.nn` (`DenseGeneral`,
`Dense`, `Conv`, `Embed`) and proofs about them.

Modelling conventions:

* A tensor is a shape together with a total index function into `ℚ`
  (exact arithmetic stands in for floating point; all the properties
  checked here are exact value/shape/dtype properties).  The index
  function is meaningful only on indices that are valid for the shape
  (`allIndices`); tensor equality is shape equality plus agreement on
  valid indices (`Tensor.SameValues`).
* Integer-dtype tensors (the inputs of `Embed`) carry `Int` entries.
* The dtype of a tensor is tracked by a `DType` field; `jnp.asarray`
  re-tags the dtype (value-preserving in the exact model) and addition
  promotes dtypes following the JAX type-promotion lattice restricted
  to the dtypes modelled here.
* The parameter store of the host module framework
  (`Module.param(name, shape, init)`) is modelled by an explicit
  partial map from parameter names to tensors: a stored tensor is
  returned as-is, otherwise the initializer is run on the shape
  (lazy-create-or-fetch).
* External primitives of the numerical framework that the spec puts
  out of scope are modelled by their documented semantics
  (`lax.dot_general`, `jnp.expand_dims`, `jnp.reshape`,
  `jnp.concatenate`, broadcasting addition, `lax.gather` specialized
  to the dimension numbers used by `Embed`), while
  `lax.conv_general_dilated` is kept abstract: `Conv.apply` receives
  it as a function argument.
* Python exceptions (`ValueError`, `assert`) become `Except LayerError`
  results.
-/

namespace FlaxLinear

/-- The dtypes needed to model this file: the four integer dtypes accepted
by `Embed` and the floating dtypes used by `Dense`/`Conv`. -/
inductive DType where
  | int32
  | int64
  | uint32
  | uint64
  | float32
  | float64
deriving DecidableEq, Repr

/-- JAX type promotion (`jnp.promote_types`) restricted to the dtypes of
`DType`: floats dominate, `uint64` with a signed integer promotes to
`float64`, `uint32` with a signed integer promotes to `int64`. -/
def promoteDType (a b : DType) : DType :=
  match a, b with
  | .float64, _ => .float64
  | _, .float64 => .float64
  | .float32, _ => .float32
  | _, .float32 => .float32
  | .uint64, .uint64 => .uint64
  | .uint64, .uint32 => .uint64
  | .uint32, .uint64 => .uint64
  | .uint64, _ => .float64
  | _, .uint64 => .float64
  | .uint32, .uint32 => .uint32
  | .uint32, _ => .int64
  | _, .uint32 => .int64
  | .int64, _ => .int64
  | _, .int64 => .int64
  | .int32, .int32 => .int32

/-- An n-dimensional array: a shape and a total index function, meaningful
on the indices valid for the shape, plus the dtype tag. -/
structure Tensor where
  shape : List Nat
  data : List Nat → ℚ
  dtype : DType

instance : Inhabited Tensor := ⟨⟨[], fun _ => 0, .float32⟩⟩

/-- Rank of a tensor (`ndarray.ndim`). -/
def Tensor.ndim (t : Tensor) : Nat := t.shape.length

/-- An integer-dtype n-dimensional array (the index inputs of `Embed`). -/
structure ITensor where
  shape : List Nat
  data : List Nat → Int
  dtype : DType

/-- Rank of an integer tensor. -/
def ITensor.ndim (t : ITensor) : Nat := t.shape.length

/-- All valid multi-indices of a shape, in row-major order. -/
def allIndices : List Nat → List (List Nat)
  | [] => [[]]
  | d :: ds => (List.range d).flatMap fun i => (allIndices ds).map (i :: ·)

/-- Row-major flattening of a multi-index. -/
def toFlat : List Nat → List Nat → Nat
  | _ :: ds, i :: is => i * ds.prod + toFlat ds is
  | _, _ => 0

/-- Row-major unflattening of a linear index. -/
def fromFlat : List Nat → Nat → List Nat
  | [], _ => []
  | _ :: ds, n => n / ds.prod :: fromFlat ds (n % ds.prod)

/-- `a.shape = b.shape` and agreement of entries on all valid indices:
the extensional equality appropriate for the index-function model
("numerically identical output"). -/
def Tensor.SameValues (a b : Tensor) : Prop :=
  a.shape = b.shape ∧ ∀ idx ∈ allIndices a.shape, a.data idx = b.data idx

/-- `jnp.asarray(x, dtype)`: re-tag the dtype.  In the exact model the
entries are unchanged (a float cast does not round rationals here). -/
def asarray (t : Tensor) (dtype : DType) : Tensor :=
  { t with dtype := dtype }

/-- `jnp.expand_dims(t, ax)`: insert a singleton axis at position `ax`. -/
def expand_dims (t : Tensor) (ax : Nat) : Tensor :=
  { shape := t.shape.insertIdx ax 1
    data := fun idx => t.data (idx.eraseIdx ax)
    dtype := t.dtype }

/-- `jnp.reshape(t, s)`: reinterpret the row-major linearization of `t`
with shape `s`. -/
def reshape (t : Tensor) (s : List Nat) : Tensor :=
  { shape := s
    data := fun idx => t.data (fromFlat t.shape (toFlat s idx))
    dtype := t.dtype }

/-- Entry lookup of `jnp.concatenate(ts, axis=0)`: walk the list of
tensors subtracting leading-axis extents until the index falls in the
current piece. -/
def concatData : List Tensor → List Nat → ℚ
  | [], _ => 0
  | t :: ts, idx =>
    if idx.headD 0 < t.shape.headD 0 then t.data idx
    else concatData ts ((idx.headD 0 - t.shape.headD 0) :: idx.tail)

/-- `jnp.concatenate(ts, axis=0)`. -/
def concat0 (ts : List Tensor) : Tensor :=
  { shape := (ts.map fun t => t.shape.headD 0).sum :: (ts.headD default).shape.tail
    data := fun idx => concatData ts idx
    dtype := (ts.headD default).dtype }

/-- Left-pad a shape with singleton axes up to rank `n` (numpy broadcast
alignment). -/
def padOnes (n : Nat) (s : List Nat) : List Nat :=
  List.replicate (n - s.length) 1 ++ s

/-- The numpy broadcast of two shapes (meaningful when `bcastCompat`). -/
def bcastShape (s t : List Nat) : List Nat :=
  let n := max s.length t.length
  (padOnes n s).zipWith (fun a b => if a = 1 then b else a) (padOnes n t)

/-- Numpy broadcast compatibility: after right-alignment every pair of
extents is equal or one of them is `1`.  An incompatible elementwise
operation raises in numpy/JAX. -/
def bcastCompat (s t : List Nat) : Bool :=
  let n := max s.length t.length
  ((padOnes n s).zip (padOnes n t)).all fun p => p.1 == p.2 || p.1 == 1 || p.2 == 1

/-- Map an index of the broadcast result to an index of an operand of
shape `s`: keep the trailing `s.length` coordinates, sending coordinates
over broadcast (size-1) axes to `0`. -/
def bcastIdx (idx : List Nat) (s : List Nat) : List Nat :=
  ((idx.drop (idx.length - s.length)).zip s).map fun p => if p.2 = 1 then 0 else p.1

/-- Broadcasting elementwise addition (`x + y` on arrays), with JAX type
promotion of the result dtype. -/
def add (a b : Tensor) : Tensor :=
  { shape := bcastShape a.shape b.shape
    data := fun idx => a.data (bcastIdx idx a.shape) + b.data (bcastIdx idx b.shape)
    dtype := promoteDType a.dtype b.dtype }

/-- Assemble a full operand multi-index of rank `ndim` from batch
coordinates `b` (at positions `bPos`), contraction coordinates `k`
(at positions `cPos`) and free coordinates `f` (at positions `fPos`). -/
def assembleIdx (bPos cPos fPos : List Nat) (b k f : List Nat) (ndim : Nat) : List Nat :=
  (List.range ndim).map fun p =>
    if p ∈ bPos then b.getD (bPos.indexOf p) 0
    else if p ∈ cPos then k.getD (cPos.indexOf p) 0
    else f.getD (fPos.indexOf p) 0

/-- `lax.dot_general(lhs, rhs, ((lhs_contract, rhs_contract),
(lhs_batch, rhs_batch)))`: output dimensions are the batch dimensions,
then the free lhs dimensions, then the free rhs dimensions; each entry
is the sum over the contracted multi-index of the product of the two
operand entries.  `precision` only selects hardware precision and has no
meaning in the exact model. -/
def dot_general (lhs rhs : Tensor)
    (lhs_contract rhs_contract lhs_batch rhs_batch : List Nat) : Tensor :=
  let lhsFree := (List.range lhs.ndim).filter fun i =>
    decide (i ∉ lhs_batch) && decide (i ∉ lhs_contract)
  let rhsFree := (List.range rhs.ndim).filter fun i =>
    decide (i ∉ rhs_batch) && decide (i ∉ rhs_contract)
  let ctrShape := lhs_contract.map fun i => lhs.shape.getD i 0
  { shape := lhs_batch.map (fun i => lhs.shape.getD i 0)
      ++ lhsFree.map (fun i => lhs.shape.getD i 0)
      ++ rhsFree.map (fun i => rhs.shape.getD i 0)
    data := fun idx =>
      let b := idx.take lhs_batch.length
      let l := (idx.drop lhs_batch.length).take lhsFree.length
      let r := (idx.drop lhs_batch.length).drop lhsFree.length
      ((allIndices ctrShape).map fun k =>
        lhs.data (assembleIdx lhs_batch lhs_contract lhsFree b k l lhs.ndim) *
        rhs.data (assembleIdx rhs_batch rhs_contract rhsFree b k r rhs.ndim)).sum
    dtype := promoteDType lhs.dtype rhs.dtype }

/-- Parameter names used by the modules of `linear.py`. -/
inductive ParamName where
  | kernel
  | bias
  | embedding
deriving DecidableEq, Repr

/-- The parameter store of the enclosing module framework. -/
def ParamStore : Type := ParamName → Option Tensor

/-- An initializer function `(rng, shape, dtype) -> tensor`; the rng and
requested dtype are folded into the function (the modules below always
pass the same rng to every invocation of an initializer). -/
def Initializer : Type := List Nat → Tensor

/-- `Module.param(name, shape, init)`: fetch the parameter from the store
if present, otherwise create it by running the initializer on the shape. -/
def param (store : ParamStore) (name : ParamName) (shape : List Nat)
    (init : Initializer) : Tensor :=
  match store name with
  | some t => t
  | none => init shape

/-- Errors raised by the modules of `linear.py`:
`batchDimsError` is the `ValueError('batch_dims %s must be consecutive
leading dimensions starting from 0.')` of `DenseGeneral.apply`,
`embedDtypeError` is the `ValueError('Input type must be an integer or
unsigned integer.')` of `Embed.apply`, and `convAssertError` is the
failure of `assert in_features % feature_group_count == 0` in
`Conv.apply`. -/
inductive LayerError where
  | batchDimsError
  | embedDtypeError
  | convAssertError
deriving DecidableEq, Repr

/-- `_normalize_axes(axes, ndim)`:
`tuple([ax if ax >= 0 else ndim + ax for ax in axes])`. -/
def _normalize_axes (axes : List Int) (ndim : Nat) : List Int :=
  axes.map fun ax => if 0 ≤ ax then ax else (ndim : Int) + ax

/-- Python `range(n)` for an integer bound `n` (empty when `n ≤ 0`),
as a list of integers. -/
def intRange (n : Int) : List Int :=
  (List.range n.toNat).map Int.ofNat

/-- Equality of the underlying sets of two integer lists
(`set(xs) == set(ys)` in Python). -/
def intSetEq (xs ys : List Int) : Bool :=
  xs.all (fun x => decide (x ∈ ys)) && ys.all (fun y => decide (y ∈ xs))

/-- The validation test of `DenseGeneral.apply` for a non-empty
`batch_dims`: with `max_dim = onp.max(batch_dims)`, checks
`set(batch_dims) == set(range(max_dim + 1))`. -/
def batchDimsConsecutive (batch_dims : List Int) : Bool :=
  let max_dim := batch_dims.foldl max (batch_dims.headD 0)
  intSetEq batch_dims (intRange (max_dim + 1))

/-- Python's negative-start slice `shape[-n:]`; for `n = 0` the slice
`shape[-0:] = shape[0:]` is the whole list. -/
def pyLastSlice {α : Type} (n : Nat) (l : List α) : List α :=
  if n = 0 then l else l.drop (l.length - n)

/-- `kernel_init_wrap(rng, shape)` from `DenseGeneral.apply`: invoke
`kernel_init` once per flattened batch index with the 2-D flattened shape
`(prod(shape[n_batch_dims : n_axis + n_batch_dims]),
prod(shape[-n_features:]))`, concatenate the slices along axis 0 and
reshape to `shape`. -/
def kernel_init_wrap (kernel_init : Initializer)
    (n_batch_dims n_axis n_features : Nat) : Initializer :=
  fun shape =>
    let size_batch_dims := (shape.take n_batch_dims).prod
    let flat_shape := [((shape.drop n_batch_dims).take n_axis).prod,
                       (pyLastSlice n_features shape).prod]
    let kernel := concat0 ((List.range size_batch_dims).map fun _ => kernel_init flat_shape)
    reshape kernel shape

/-- `bias_init_wrap(rng, shape)` from `DenseGeneral.apply`: invoke
`bias_init` once per flattened batch index with the 1-D flattened shape
`(prod(shape[-n_features:]),)`, concatenate along axis 0 and reshape. -/
def bias_init_wrap (bias_init : Initializer)
    (n_batch_dims n_features : Nat) : Initializer :=
  fun shape =>
    let size_batch_dims := (shape.take n_batch_dims).prod
    let flat_shape := [(pyLastSlice n_features shape).prod]
    let b := concat0 ((List.range size_batch_dims).map fun _ => bias_init flat_shape)
    reshape b shape

/-- `tuple(inputs.shape[ax] for ax in axs)` for a list of (already
normalized) axes. -/
def shapeAt (inputs : Tensor) (axs : List Int) : List Nat :=
  axs.map fun ax => inputs.shape.getD ax.toNat 0

/-- `sorted(set(range(ndim)) - set(axis) - set(batch_dims))` from the
bias branch of `DenseGeneral.apply` (a filter of `range` is sorted). -/
def freePositions (axisN batchN : List Int) (ndim : Nat) : List Nat :=
  (List.range ndim).filter fun i =>
    decide (((i : Int)) ∉ axisN) && decide (((i : Int)) ∉ batchN)

namespace DenseGeneral

/-- The kernel parameter of `DenseGeneral.apply`:
`self.param('kernel', batch_shape + kernel_shape, kernel_init_wrap)`
with `batch_shape = tuple(inputs.shape[ax] for ax in batch_dims)` and
`kernel_shape = tuple(inputs.shape[ax] for ax in axis) + features`
(axes normalized). -/
def kernelParam (store : ParamStore) (inputs : Tensor) (features : List Nat)
    (axis batch_dims : List Int) (kernel_init : Initializer) : Tensor :=
  let ndim := inputs.ndim
  let axisN := _normalize_axes axis ndim
  let batchN := _normalize_axes batch_dims ndim
  param store ParamName.kernel
    (shapeAt inputs batchN ++ (shapeAt inputs axisN ++ features))
    (kernel_init_wrap kernel_init batch_dims.length axis.length features.length)

/-- The contraction of `DenseGeneral.apply`:
`lax.dot_general(inputs, kernel, ((axis, contract_ind),
(batch_dims, batch_ind)))` with `batch_ind = range(n_batch_dims)` and
`contract_ind = range(n_batch_dims, n_axis + n_batch_dims)`. -/
def contractionOut (store : ParamStore) (inputs : Tensor) (features : List Nat)
    (axis batch_dims : List Int) (kernel_init : Initializer) : Tensor :=
  let ndim := inputs.ndim
  let axisN := _normalize_axes axis ndim
  let batchN := _normalize_axes batch_dims ndim
  let n_batch_dims := batch_dims.length
  let kernel := kernelParam store inputs features axis batch_dims kernel_init
  dot_general inputs kernel
    (axisN.map Int.toNat)
    ((List.range axis.length).map (· + n_batch_dims))
    (batchN.map Int.toNat)
    (List.range n_batch_dims)

/-- The bias of `DenseGeneral.apply` after the broadcast-reshaping loop:
`self.param('bias', batch_shape + features, bias_init_wrap)` followed by
`for ax in expand_dims: bias = jnp.expand_dims(bias, ax)` over
`expand_dims = sorted(set(range(inputs.ndim)) - set(axis) -
set(batch_dims))`. -/
def expandedBias (store : ParamStore) (inputs : Tensor) (features : List Nat)
    (axis batch_dims : List Int) (bias_init : Initializer) : Tensor :=
  let ndim := inputs.ndim
  let axisN := _normalize_axes axis ndim
  let batchN := _normalize_axes batch_dims ndim
  let biasT := param store ParamName.bias (shapeAt inputs batchN ++ features)
    (bias_init_wrap bias_init batch_dims.length features.length)
  (freePositions axisN batchN ndim).foldl expand_dims biasT

/-- `DenseGeneral.apply(inputs, features, axis, batch_dims, bias,
kernel_init, bias_init, precision)`.  The `ValueError` on a non-empty
`batch_dims` whose set is not `set(range(max(batch_dims) + 1))` is
raised before the kernel parameter is created and before the
contraction; `precision` is a pass-through to `lax.dot_general` with no
meaning in the exact model. -/
def apply (store : ParamStore) (inputs : Tensor) (features : List Nat)
    (axis batch_dims : List Int) (bias : Bool)
    (kernel_init bias_init : Initializer) : Except LayerError Tensor :=
  if !batch_dims.isEmpty && !batchDimsConsecutive batch_dims then
    .error .batchDimsError
  else
    let out := contractionOut store inputs features axis batch_dims kernel_init
    if bias then
      .ok (add out (expandedBias store inputs features axis batch_dims bias_init))
    else
      .ok out

end DenseGeneral

namespace Dense

/-- `Dense.apply(inputs, features, bias, dtype, precision, kernel_init,
bias_init)`: cast the input and the kernel to `dtype`, contract the last
input axis against the first kernel axis, and add the bias parameter
(which is *not* cast to `dtype`). -/
def apply (store : ParamStore) (inputs : Tensor) (features : Nat) (bias : Bool)
    (dtype : DType) (kernel_init bias_init : Initializer) : Tensor :=
  let inputsA := asarray inputs dtype
  let kernel := param store ParamName.kernel
    [inputsA.shape.getD (inputsA.ndim - 1) 0, features] kernel_init
  let kernelA := asarray kernel dtype
  let y := dot_general inputsA kernelA [inputsA.ndim - 1] [0] [] []
  if bias then add y (param store ParamName.bias [features] bias_init) else y

end Dense

namespace Conv

/-- `Conv.apply(inputs, features, kernel_size, strides, padding,
lhs_dilation, rhs_dilation, feature_group_count, bias, dtype, precision,
kernel_init, bias_init)`.  The actual sliding-window computation
`lax.conv_general_dilated` is an external primitive and is passed in as
`convPrim` (with `padding`, the dilations, the dimension numbers and
`precision` folded into it); this layer's own responsibility is the
default strides, the divisibility assertion, the kernel shape, and the
dtype plumbing — the bias *is* cast to `dtype` before the addition. -/
def apply (convPrim : Tensor → Tensor → List Nat → Tensor)
    (store : ParamStore) (inputs : Tensor) (features : Nat)
    (kernel_size : List Nat) (strides : Option (List Nat))
    (feature_group_count : Nat) (bias : Bool) (dtype : DType)
    (kernel_init bias_init : Initializer) : Except LayerError Tensor :=
  let inputsA := asarray inputs dtype
  let stridesV := match strides with
    | some s => s
    | none => List.replicate (inputsA.ndim - 2) 1
  let in_features := inputsA.shape.getD (inputsA.ndim - 1) 0
  if in_features % feature_group_count ≠ 0 then
    .error .convAssertError
  else
    let kernel_shape := kernel_size ++ [in_features / feature_group_count, features]
    let kernel := asarray (param store ParamName.kernel kernel_shape kernel_init) dtype
    let y := convPrim inputsA kernel stridesV
    .ok (if bias then add y (asarray (param store ParamName.bias [features] bias_init) dtype)
         else y)

end Conv

/-- `lax.gather(embedding, inputs, GatherDimensionNumbers(
offset_dims=(inputs.ndim - 1,), collapsed_slice_dims=(0,),
start_index_map=(0,)), slice_sizes=(1, features))` as used by
`Embed.apply`: every input position (over all axes but the last, which
must have size 1) selects one row of the table; XLA clamps the start
index into `[0, num_rows - 1]`. -/
def gatherRows (operand : Tensor) (start_indices : ITensor) : Tensor :=
  let n := operand.shape.getD 0 0
  { shape := start_indices.shape.dropLast ++ [operand.shape.getD 1 0]
    data := fun idx =>
      let i := start_indices.data (idx.dropLast ++ [0])
      operand.data [(min (max i 0) ((n : Int) - 1)).toNat, idx.getLastD 0]
    dtype := operand.dtype }

namespace Embed

/-- The accepted input dtypes of `Embed.apply`:
`[jnp.int32, jnp.int64, jnp.uint32, jnp.uint64]`. -/
def acceptedDTypes : List DType :=
  [DType.int32, DType.int64, DType.uint32, DType.uint64]

/-- `Embed.apply(inputs, num_embeddings, features, embedding_init)`:
reject non-integer input dtypes with a `ValueError`, then gather rows of
the `(num_embeddings, features)` embedding table. -/
def apply (store : ParamStore) (inputs : ITensor)
    (num_embeddings features : Nat) (embedding_init : Initializer) :
    Except LayerError Tensor :=
  if inputs.dtype ∉ acceptedDTypes then
    .error .embedDtypeError
  else
    let embedding := param store ParamName.embedding [num_embeddings, features] embedding_init
    .ok (gatherRows embedding inputs)

end Embed

/-- The `n × n` identity matrix as a tensor. -/
def idMatrix (n : Nat) : Tensor :=
  { shape := [n, n]
    data := fun idx => if idx.getD 0 0 = idx.getD 1 0 then 1 else 0
    dtype := .float32 }

/-! ## Fixtures used by the witness theorems -/

/-- A deterministic initializer: entry = row-major position. -/
def wInit : Initializer := fun s => ⟨s, fun idx => ((toFlat s idx : Nat) : ℚ), .float32⟩

/-- A concrete `2 × 3` input tensor. -/
def wInputs2 : Tensor := ⟨[2, 3], fun idx => ((toFlat [2, 3] idx : Nat) : ℚ), .float32⟩

/-- A concrete `3 × 4` kernel value. -/
def wKernel34 : Tensor := ⟨[3, 4], fun idx => ((toFlat [3, 4] idx : Nat) : ℚ), .float32⟩

/-- A concrete length-4 bias value (of dtype `float64`). -/
def wBias4 : Tensor := ⟨[4], fun idx => ((100 * idx.headD 0 : Nat) : ℚ), .float64⟩

/-- A store holding the concrete kernel and bias. -/
def wStore : ParamStore := fun n =>
  match n with
  | ParamName.kernel => some wKernel34
  | ParamName.bias => some wBias4
  | ParamName.embedding => none

/-- The empty parameter store (all parameters created by initializers). -/
def wEmptyStore : ParamStore := fun _ => none

/-! ## Basic lemmas about indices and shapes -/

theorem mem_allIndices {s : List Nat} {idx : List Nat} :
    idx ∈ allIndices s ↔ List.Forall₂ (· < ·) idx s := by
  induction s generalizing idx with
  | nil =>
    simp only [allIndices, List.mem_singleton]
    constructor
    · rintro rfl; exact List.Forall₂.nil
    · intro h; cases h; rfl
  | cons d ds ih =>
    simp only [allIndices, List.mem_flatMap, List.mem_map, List.mem_range]
    constructor
    · rintro ⟨i, hi, rest, hrest, rfl⟩
      exact List.Forall₂.cons hi (ih.mp hrest)
    · intro h
      cases h with
      | cons hd tl => exact ⟨_, hd, _, ih.mpr tl, rfl⟩

theorem forall₂_lt_pos {idx s : List Nat} (h : List.Forall₂ (· < ·) idx s) :
    ∀ d ∈ s, 0 < d := by
  induction h with
  | nil => simp
  | cons hd _ ih =>
    intro d hmem
    rcases List.mem_cons.mp hmem with rfl | hmem
    · exact Nat.lt_of_le_of_lt (Nat.zero_le _) hd
    · exact ih d hmem

theorem forall₂_lt_length {idx s : List Nat} (h : List.Forall₂ (· < ·) idx s) :
    idx.length = s.length :=
  List.Forall₂.length_eq h

theorem prod_pos_of_forall₂ {idx s : List Nat} (h : List.Forall₂ (· < ·) idx s) :
    0 < s.prod :=
  List.prod_pos (forall₂_lt_pos h)

theorem toFlat_lt {s idx : List Nat} (h : List.Forall₂ (· < ·) idx s) :
    toFlat s idx < s.prod := by
  induction h with
  | nil => simp [toFlat]
  | @cons i d is ds hd tl ih =>
    simp only [toFlat, List.prod_cons]
    calc i * ds.prod + toFlat ds is
        < i * ds.prod + ds.prod := Nat.add_lt_add_left ih _
      _ = (i + 1) * ds.prod := by ring
      _ ≤ d * ds.prod := Nat.mul_le_mul_right _ hd

theorem toFlat_append {s1 s2 i1 i2 : List Nat} (h : i1.length = s1.length) :
    toFlat (s1 ++ s2) (i1 ++ i2) = toFlat s1 i1 * s2.prod + toFlat s2 i2 := by
  induction s1 generalizing i1 with
  | nil =>
    rw [List.length_nil, List.length_eq_zero] at h
    subst h; simp [toFlat]
  | cons d ds ih =>
    cases i1 with
    | nil => simp at h
    | cons i is =>
      have h' : is.length = ds.length := by simpa using h
      show toFlat (d :: (ds ++ s2)) (i :: (is ++ i2)) = _
      simp only [toFlat]
      rw [ih h', List.prod_append]
      ring

theorem range_map_getD {l : List Nat} {m : Nat} (h : m ≤ l.length) :
    (List.range m).map (fun i => l.getD i 0) = l.take m := by
  apply List.ext_getElem
  · simp [Nat.min_eq_left h]
  · intro i h1 h2
    have hi : i < m := by simpa using h1
    have hil : i < l.length := lt_of_lt_of_le hi h
    simp only [List.getElem_map, List.getElem_range, List.getElem_take]
    exact List.getD_eq_getElem l 0 hil

theorem flatMap_singleton_map {α β : Type} (l : List α) (f : α → β) :
    (l.flatMap fun i => [f i]) = l.map f := by
  induction l with
  | nil => rfl
  | cons a l ih => simp [ih]

theorem allIndices_singleton (n : Nat) :
    allIndices [n] = (List.range n).map (fun i => [i]) := by
  show ((List.range n).flatMap fun i => (allIndices []).map (i :: ·)) = _
  simp only [allIndices, List.map_cons, List.map_nil]
  exact flatMap_singleton_map _ _

theorem sum_map_range_ite {n j : Nat} (g : Nat → ℚ) (hj : j < n) :
    (((List.range n).map fun k => if k = j then g k else 0)).sum = g j := by
  induction n with
  | zero => omega
  | succ m ih =>
    rw [List.range_succ, List.map_append, List.sum_append]
    rcases Nat.lt_or_ge j m with h | h
    · rw [ih h]
      simp [Nat.ne_of_gt h]
    · have hj' : j = m := by omega
      subst hj'
      have : ((List.range j).map fun k => if k = j then g k else 0) =
          (List.range j).map fun _ => (0 : ℚ) := by
        apply List.map_congr_left
        intro k hk
        simp only [List.mem_range] at hk
        simp [Nat.ne_of_lt hk]
      simp [this]

/-! ## C2, C4, C5: the guard checks -/

/-- **C2.** A `DenseGeneral` call with a non-empty `batch_dims` whose
elements do not form the set `{0, …, max(batch_dims)}` fails with the
configuration `ValueError` (in the embedding the error is returned
before the kernel parameter or the contraction is evaluated, mirroring
the order of effects in the source); a call whose `batch_dims` does
form that set passes the validation. -/
theorem denseGeneral_batch_dims_validation
    (store : ParamStore) (inputs : Tensor) (features : List Nat)
    (axis batch_dims : List Int) (bias : Bool)
    (kernel_init bias_init : Initializer) :
    (batch_dims ≠ [] ∧ batchDimsConsecutive batch_dims = false →
      DenseGeneral.apply store inputs features axis batch_dims bias kernel_init bias_init
        = .error .batchDimsError) ∧
    (batchDimsConsecutive batch_dims = true →
      (DenseGeneral.apply store inputs features axis batch_dims bias kernel_init bias_init).isOk
        = true) := by
  constructor
  · rintro ⟨h1, h2⟩
    have hg : (!batch_dims.isEmpty && !batchDimsConsecutive batch_dims) = true := by
      simp [h2, List.isEmpty_iff, h1]
    simp [DenseGeneral.apply, hg]
  · intro h
    have hg : (!batch_dims.isEmpty && !batchDimsConsecutive batch_dims) = false := by
      simp [h]
    cases bias <;> simp [DenseGeneral.apply, hg, Except.isOk, Except.toBool]

theorem denseGeneral_batch_dims_validation_witness :
    (DenseGeneral.apply wStore wInputs2 [4] [-1] [0, 2] true wInit wInit
      = .error .batchDimsError) ∧
    (DenseGeneral.apply wStore wInputs2 [4] [-1] [0, 1] true wInit wInit).isOk = true :=
  ⟨(denseGeneral_batch_dims_validation wStore wInputs2 [4] [-1] [0, 2] true wInit wInit).1
      ⟨by decide, by decide⟩,
   (denseGeneral_batch_dims_validation wStore wInputs2 [4] [-1] [0, 1] true wInit wInit).2
      (by decide)⟩

/-- **C4.** `Embed` rejects any input dtype outside
`{int32, int64, uint32, uint64}` with the type `ValueError`, and raises
no dtype error for those four dtypes. -/
theorem embed_dtype_check (store : ParamStore) (inputs : ITensor)
    (num_embeddings features : Nat) (embedding_init : Initializer) :
    (inputs.dtype ∉ Embed.acceptedDTypes →
      Embed.apply store inputs num_embeddings features embedding_init
        = .error .embedDtypeError) ∧
    (inputs.dtype ∈ Embed.acceptedDTypes →
      (Embed.apply store inputs num_embeddings features embedding_init).isOk = true) := by
  constructor
  · intro h
    simp [Embed.apply, h]
  · intro h
    simp [Embed.apply, h, Except.isOk, Except.toBool]

theorem embed_dtype_check_witness :
    (Embed.apply wEmptyStore ⟨[2, 1], fun _ => 0, DType.float32⟩ 5 3 wInit
      = .error .embedDtypeError) ∧
    (Embed.apply wEmptyStore ⟨[2, 1], fun _ => 0, DType.uint32⟩ 5 3 wInit).isOk = true :=
  ⟨(embed_dtype_check wEmptyStore ⟨[2, 1], fun _ => 0, DType.float32⟩ 5 3 wInit).1 (by decide),
   (embed_dtype_check wEmptyStore ⟨[2, 1], fun _ => 0, DType.uint32⟩ 5 3 wInit).2 (by decide)⟩

/-- **C5.** `Conv` fails on the assertion
`in_features % feature_group_count == 0` when the input channel count is
not divisible by `feature_group_count`, and proceeds to the convolution
when it is. -/
theorem conv_feature_group_divisibility
    (convPrim : Tensor → Tensor → List Nat → Tensor) (store : ParamStore)
    (inputs : Tensor) (features : Nat) (kernel_size : List Nat)
    (strides : Option (List Nat)) (feature_group_count : Nat) (bias : Bool)
    (dtype : DType) (kernel_init bias_init : Initializer) :
    (inputs.shape.getD (inputs.ndim - 1) 0 % feature_group_count ≠ 0 →
      Conv.apply convPrim store inputs features kernel_size strides
        feature_group_count bias dtype kernel_init bias_init
        = .error .convAssertError) ∧
    (inputs.shape.getD (inputs.ndim - 1) 0 % feature_group_count = 0 →
      (Conv.apply convPrim store inputs features kernel_size strides
        feature_group_count bias dtype kernel_init bias_init).isOk = true) := by
  constructor
  · intro h
    have h' : ¬ inputs.shape[inputs.shape.length - 1]?.getD 0 % feature_group_count = 0 := by
      simpa [Tensor.ndim, List.getD_eq_getElem?_getD] using h
    simp [Conv.apply, asarray, Tensor.ndim, h']
  · intro h
    have h' : inputs.shape[inputs.shape.length - 1]?.getD 0 % feature_group_count = 0 := by
      simpa [Tensor.ndim, List.getD_eq_getElem?_getD] using h
    simp [Conv.apply, asarray, Tensor.ndim, h', Except.isOk, Except.toBool]

theorem conv_feature_group_divisibility_witness :
    (Conv.apply (fun i _ _ => i) wEmptyStore
      ⟨[2, 8, 5], fun _ => 0, .float32⟩ 6 [3] none 2 true .float32 wInit wInit
      = .error .convAssertError) ∧
    (Conv.apply (fun i _ _ => i) wEmptyStore
      ⟨[2, 8, 6], fun _ => 0, .float32⟩ 6 [3] none 2 true .float32 wInit wInit).isOk
      = true :=
  ⟨(conv_feature_group_divisibility (fun i _ _ => i) wEmptyStore
      ⟨[2, 8, 5], fun _ => 0, .float32⟩ 6 [3] none 2 true .float32 wInit wInit).1 (by decide),
   (conv_feature_group_divisibility (fun i _ _ => i) wEmptyStore
      ⟨[2, 8, 6], fun _ => 0, .float32⟩ 6 [3] none 2 true .float32 wInit wInit).2 (by decide)⟩

/-! ## C3: Embed lookup semantics -/

/-- **C3.** For an integer input of shape `(B, 1)` with all entries in
`[0, num_embeddings)` and an embedding table of shape
`(num_embeddings, features)`, `Embed` produces output of shape
`(B, features)` whose row `i` is the table row at position
`inputs[i, 0]` (the XLA gather clamp is the identity on in-range
indices). -/
theorem embed_lookup (store : ParamStore) (inputs : ITensor) (T : Tensor)
    (B num_embeddings features : Nat) (embedding_init : Initializer)
    (hdt : inputs.dtype ∈ Embed.acceptedDTypes)
    (hsh : inputs.shape = [B, 1])
    (hT : store ParamName.embedding = some T)
    (hTs : T.shape = [num_embeddings, features])
    (hrange : ∀ i, i < B →
      0 ≤ inputs.data [i, 0] ∧ inputs.data [i, 0] < (num_embeddings : Int)) :
    ∃ out, Embed.apply store inputs num_embeddings features embedding_init = .ok out ∧
      out.shape = [B, features] ∧
      ∀ i f, i < B → f < features →
        out.data [i, f] = T.data [(inputs.data [i, 0]).toNat, f] := by
  refine ⟨gatherRows (param store ParamName.embedding [num_embeddings, features] embedding_init)
    inputs, ?_, ?_, ?_⟩
  · simp [Embed.apply, hdt]
  · simp [gatherRows, param, hT, hsh, hTs]
  · intro i f hi hf
    have hv := hrange i hi
    have hd : ([i, f] : List Nat).dropLast ++ [0] = [i, 0] := by simp
    have hl : ([i, f] : List Nat).getLastD 0 = f := rfl
    simp only [gatherRows, param, hT, hd, hl, hTs]
    have h1 : max (inputs.data [i, 0]) 0 = inputs.data [i, 0] := max_eq_left hv.1
    have h2 : min (inputs.data [i, 0]) ((num_embeddings : Int) - 1) = inputs.data [i, 0] := by
      refine min_eq_left ?_
      omega
    simp only [List.getD_cons_zero, h1, h2]

/-- A concrete `5 × 3` embedding table. -/
def wEmb : Tensor := ⟨[5, 3], fun idx => ((10 * idx.headD 0 + idx.getD 1 0 : Nat) : ℚ), .float32⟩

/-- A concrete `(4, 1)` index tensor with entries `3, 0, 2, 4`. -/
def wIdxT : ITensor := ⟨[4, 1], fun idx => ([3, 0, 2, 4].getD (idx.headD 0) 0 : Int), .int32⟩

/-- A store holding the concrete embedding table. -/
def wEmbStore : ParamStore := fun n =>
  match n with
  | ParamName.embedding => some wEmb
  | _ => none

theorem embed_lookup_witness :
    (wIdxT.dtype ∈ Embed.acceptedDTypes) ∧
    (∃ out, Embed.apply wEmbStore wIdxT 5 3 wInit = .ok out ∧ out.shape = [4, 3] ∧
      ∀ i f, i < 4 → f < 3 → out.data [i, f] = wEmb.data [(wIdxT.data [i, 0]).toNat, f]) :=
  ⟨by decide,
   embed_lookup wEmbStore wIdxT wEmb 4 5 3 wInit (by decide) rfl rfl rfl
     (by intro i hi; interval_cases i <;> exact ⟨by decide, by decide⟩)⟩

/-! ## C9: Dense with an identity kernel -/

@[simp] theorem asarray_shape (t : Tensor) (d : DType) : (asarray t d).shape = t.shape := rfl

@[simp] theorem asarray_data (t : Tensor) (d : DType) : (asarray t d).data = t.data := rfl

@[simp] theorem asarray_dtype (t : Tensor) (d : DType) : (asarray t d).dtype = d := rfl

@[simp] theorem asarray_ndim (t : Tensor) (d : DType) : (asarray t d).ndim = t.ndim := rfl

theorem indexOf_range {m p : Nat} (h : p < m) : (List.range m).indexOf p = p := by
  induction m with
  | zero => omega
  | succ k ih =>
    rw [List.range_succ]
    rcases Nat.lt_or_ge p k with h' | h'
    · rw [List.indexOf_append_of_mem (by simpa using h')]
      exact ih h'
    · have hp : p = k := by omega
      subst hp
      rw [List.indexOf_append_of_not_mem (by simp), List.length_range]
      simp

theorem drop_eq_singleton_getD {l : List Nat} {m : Nat} (h : l.length = m + 1) :
    l.drop m = [l.getD m 0] := by
  apply List.ext_getElem
  · simp [h]
  · intro i h1 h2
    have hi : i = 0 := by
      simp [h] at h1
      omega
    subst hi
    simp only [List.getElem_drop, Nat.add_zero, List.getElem_singleton]
    exact (List.getD_eq_getElem l 0 (by omega)).symm

theorem filter_range_ne_last (m : Nat) :
    (List.range (m + 1)).filter
      (fun i => decide (i ∉ ([] : List Nat)) && decide (i ∉ ([m] : List Nat)))
      = List.range m := by
  rw [List.range_succ, List.filter_append]
  have h1 : (List.range m).filter
      (fun i => decide (i ∉ ([] : List Nat)) && decide (i ∉ ([m] : List Nat)))
      = List.range m := by
    refine List.filter_eq_self.mpr ?_
    intro a ha
    simp only [List.mem_range] at ha
    simp
    omega
  have h2 : ([m] : List Nat).filter
      (fun i => decide (i ∉ ([] : List Nat)) && decide (i ∉ ([m] : List Nat)))
      = [] := by simp
  rw [h1, h2, List.append_nil]

theorem assembleIdx_lastAxis {m k : Nat} {idx : List Nat} (hlen : idx.length = m + 1) :
    assembleIdx [] [m] (List.range m) [] [k] (idx.take m) (m + 1) = idx.take m ++ [k] := by
  have hto : (idx.take m).length = m := by simp [hlen]
  apply List.ext_getElem
  · simp [assembleIdx, hto]
  · intro p hp1 hp2
    have hpm : p < m + 1 := by simpa [assembleIdx] using hp1
    simp only [assembleIdx, List.getElem_map, List.getElem_range]
    by_cases hcase : p = m
    · subst hcase
      rw [if_neg (by simp), if_pos (by simp)]
      rw [List.getElem_concat_length _ _ _ hto.symm]
      simp
    · have hplt : p < m := by omega
      have hpl : p < (idx.take m).length := by
        rw [hto]
        exact hplt
      rw [if_neg (by simp), if_neg (by simp [hcase]), indexOf_range hplt]
      rw [List.getElem_append_left hpl]
      exact List.getD_eq_getElem _ 0 hpl

theorem assembleIdx_rhs2 (r : List Nat) (k : Nat) :
    assembleIdx [] [0] [1] [] [k] r 2 = [k, r.getD 0 0] := rfl

/-- Pointwise characterization of the `dot_general` call made by `Dense`:
contraction of the last axis of `lhs` (of rank `m + 1`) against the first
axis of a rank-2 `rhs`, with no batch dimensions. -/
theorem dot_general_lastAxis (lhs rhs : Tensor) (m : Nat)
    (hm : lhs.shape.length = m + 1) (hr : rhs.shape.length = 2) :
    (dot_general lhs rhs [m] [0] [] []).shape
      = lhs.shape.take m ++ [rhs.shape.getD 1 0] ∧
    ∀ idx : List Nat, idx.length = m + 1 →
      (dot_general lhs rhs [m] [0] [] []).data idx
        = ((List.range (lhs.shape.getD m 0)).map fun k =>
            lhs.data (idx.take m ++ [k]) * rhs.data [k, idx.getD m 0]).sum := by
  have hfree : (List.range lhs.ndim).filter
      (fun i => decide (i ∉ ([] : List Nat)) && decide (i ∉ ([m] : List Nat)))
      = List.range m := by
    rw [Tensor.ndim, hm]
    exact filter_range_ne_last m
  have hfree2 : (List.range rhs.ndim).filter
      (fun i => decide (i ∉ ([] : List Nat)) && decide (i ∉ ([0] : List Nat)))
      = [1] := by
    rw [Tensor.ndim, hr]
    rfl
  constructor
  · simp only [dot_general, hfree, hfree2]
    rw [range_map_getD (by omega)]
    simp
  · intro idx hlen
    simp only [dot_general, hfree, hfree2]
    simp only [List.map_cons, List.map_nil]
    rw [allIndices_singleton, List.map_map]
    apply congrArg List.sum
    refine List.map_congr_left ?_
    intro k hk
    simp only [Function.comp_apply, List.length_nil, List.take_zero, List.drop_zero,
      List.length_range, List.length_singleton]
    rw [Tensor.ndim, Tensor.ndim, hm, hr, assembleIdx_lastAxis hlen, assembleIdx_rhs2]
    have hdg : (idx.drop m).getD 0 0 = idx.getD m 0 := by
      rw [drop_eq_singleton_getD hlen]
      rfl
    rw [hdg]

/-- The contracted-axis extents seen by `dot_general` for the `Dense`
call: `[m].map (lhs.shape.getD · 0) = [lhs.shape.getD m 0]` is
definitional, so the contraction sum ranges over the last input axis. -/
theorem dense_apply_no_bias (store : ParamStore) (inputs : Tensor) (features : Nat)
    (dtype : DType) (kernel_init bias_init : Initializer) (K : Tensor)
    (hK : store ParamName.kernel = some K) :
    Dense.apply store inputs features false dtype kernel_init bias_init
      = dot_general (asarray inputs dtype) (asarray K dtype)
          [inputs.shape.length - 1] [0] [] [] := by
  simp [Dense.apply, param, hK, Tensor.ndim]

/-- **C9.** `Dense` with bias disabled, `features` equal to the size `n`
of the input's last axis, and the kernel parameter equal to the `n × n`
identity matrix returns the input unchanged (exactly, in the
exact-arithmetic embedding). -/
theorem dense_identity_kernel (store : ParamStore) (inputs : Tensor) (n : Nat)
    (dtype : DType) (kernel_init bias_init : Initializer)
    (hnd : 0 < inputs.shape.length)
    (hn : inputs.shape.getD (inputs.shape.length - 1) 0 = n)
    (hK : store ParamName.kernel = some (idMatrix n)) :
    (Dense.apply store inputs n false dtype kernel_init bias_init).SameValues inputs := by
  obtain ⟨m, hm⟩ : ∃ m, inputs.shape.length = m + 1 := ⟨inputs.shape.length - 1, by omega⟩
  have hm1 : inputs.shape.length - 1 = m := by omega
  have happ := dense_apply_no_bias store inputs n dtype kernel_init bias_init (idMatrix n) hK
  rw [hm1] at happ
  have hchar := dot_general_lastAxis (asarray inputs dtype) (asarray (idMatrix n) dtype) m
    (by simpa using hm) (by simp [idMatrix])
  have hshape : (Dense.apply store inputs n false dtype kernel_init bias_init).shape
      = inputs.shape := by
    rw [happ, hchar.1]
    have hgetD1 : (asarray (idMatrix n) dtype).shape.getD 1 0 = n := rfl
    rw [hgetD1, asarray_shape]
    have hdrop : inputs.shape.drop m = [n] := by
      rw [drop_eq_singleton_getD hm, ← hm1, hn]
    rw [← hdrop, List.take_append_drop]
  refine ⟨hshape, ?_⟩
  intro idx hidx
  rw [hshape] at hidx
  have hvalid : List.Forall₂ (· < ·) idx inputs.shape := mem_allIndices.mp hidx
  have hlen : idx.length = m + 1 := by
    rw [forall₂_lt_length hvalid, hm]
  rw [happ, hchar.2 idx hlen]
  have hlast : (asarray inputs dtype).shape.getD m 0 = n := by
    rw [asarray_shape, ← hm1]
    exact hn
  rw [hlast]
  have hsm : inputs.shape.getD m 0 = n := by
    rw [← hm1]
    exact hn
  have hj : idx.getD m 0 < n := by
    rcases List.forall₂_iff_get.mp hvalid with ⟨hle, hget⟩
    have hlt := hget m (by omega) (by omega)
    simp only [List.get_eq_getElem] at hlt
    rw [List.getD_eq_getElem _ 0 (by omega : m < idx.length), ← hsm,
      List.getD_eq_getElem _ 0 (by omega : m < inputs.shape.length)]
    exact hlt
  have hid : ∀ k, (asarray (idMatrix n) dtype).data [k, idx.getD m 0]
      = if k = idx.getD m 0 then 1 else 0 := by
    intro k
    rfl
  have hstep : ((List.range n).map fun k =>
      (asarray inputs dtype).data (idx.take m ++ [k]) *
        (asarray (idMatrix n) dtype).data [k, idx.getD m 0]).sum
      = ((List.range n).map fun k =>
          if k = idx.getD m 0 then inputs.data (idx.take m ++ [k]) else 0).sum := by
    apply congrArg List.sum
    refine List.map_congr_left ?_
    intro k hk
    rw [hid, asarray_data]
    split
    · rw [mul_one]
    · rw [mul_zero]
  rw [hstep, sum_map_range_ite _ hj]
  have hidx_eq : idx.take m ++ [idx.getD m 0] = idx := by
    rw [← drop_eq_singleton_getD hlen, List.take_append_drop]
  rw [hidx_eq]

theorem dense_identity_kernel_witness :
    (0 < ([2, 3] : List Nat).length) ∧
    (Dense.apply (fun p => if p = ParamName.kernel then some (idMatrix 3) else none)
        wInputs2 3 false DType.float32 wInit wInit).SameValues wInputs2 :=
  ⟨by decide,
   dense_identity_kernel (fun p => if p = ParamName.kernel then some (idMatrix 3) else none)
     wInputs2 3 DType.float32 wInit wInit (by decide) (by decide) rfl⟩

/-! ## C1: DenseGeneral with axis = -1, batch_dims = () refines Dense -/

theorem drop_eraseIdx_self (idx : List Nat) (m : Nat) :
    (idx.eraseIdx m).drop m = idx.drop (m + 1) := by
  rcases le_or_lt idx.length m with h | h
  · rw [List.eraseIdx_eq_self.mpr h, List.drop_eq_nil_of_le h,
      List.drop_eq_nil_of_le (by omega)]
  · rw [List.eraseIdx_eq_take_drop_succ]
    have hl : (idx.take m).length = m := by
      simp
      omega
    have hd := @List.drop_append _ (idx.take m) (idx.drop (m + 1)) 0
    rw [hl, Nat.add_zero, List.drop_zero] at hd
    exact hd

theorem insertIdx_at_length {α : Type} (l1 l2 : List α) (a : α) :
    List.insertIdx l1.length a (l1 ++ l2) = l1 ++ a :: l2 := by
  induction l1 with
  | nil => rfl
  | cons b l ih => simp [List.insertIdx_succ_cons, ih]

theorem zip_drop {α β : Type} (l : List α) (l' : List β) (n : Nat) :
    (l.zip l').drop n = (l.drop n).zip (l'.drop n) := by
  induction n generalizing l l' with
  | zero => rfl
  | succ k ih =>
    cases l with
    | nil => simp
    | cons a l =>
      cases l' with
      | nil => simp
      | cons b l' => simp [List.zip_cons_cons, ih]

/-- The bias-expansion fold of `DenseGeneral` in the `axis = -1,
batch_dims = ()` case: expanding at positions `0, 1, …, m - 1` in
ascending order prepends `m` singleton axes, and entry lookup drops the
first `m` coordinates. -/
theorem foldl_expand_dims_range (t : Tensor) (m : Nat) :
    ((List.range m).foldl expand_dims t).shape = List.replicate m 1 ++ t.shape ∧
    ∀ idx : List Nat, ((List.range m).foldl expand_dims t).data idx = t.data (idx.drop m) := by
  induction m with
  | zero => exact ⟨rfl, fun idx => rfl⟩
  | succ k ih =>
    rw [List.range_succ, List.foldl_append, List.foldl_cons, List.foldl_nil]
    constructor
    · show (List.insertIdx k 1 ((List.range k).foldl expand_dims t).shape) = _
      rw [ih.1]
      have hins := insertIdx_at_length (List.replicate k (1 : Nat)) t.shape 1
      rw [List.length_replicate] at hins
      rw [hins, List.replicate_succ']
      simp
    · intro idx
      show ((List.range k).foldl expand_dims t).data (idx.eraseIdx k) = _
      rw [ih.2, drop_eraseIdx_self]

theorem freePositions_single_last (m : Nat) :
    freePositions [(m : Int)] [] (m + 1) = List.range m := by
  unfold freePositions
  rw [List.range_succ, List.filter_append]
  have h1 : (List.range m).filter
      (fun (i : Nat) => decide (((i : Nat) : Int) ∉ ([(m : Int)] : List Int))
        && decide (((i : Nat) : Int) ∉ ([] : List Int))) = List.range m := by
    refine List.filter_eq_self.mpr ?_
    intro a ha
    simp only [List.mem_range] at ha
    simp
    omega
  have h2 : ([m] : List Nat).filter
      (fun (i : Nat) => decide (((i : Nat) : Int) ∉ ([(m : Int)] : List Int))
        && decide (((i : Nat) : Int) ∉ ([] : List Int))) = [] := by simp
  rw [h1, h2, List.append_nil]

/-- **C1.** With `axis = -1` and `batch_dims = ()`, `DenseGeneral`
succeeds and produces output numerically identical (same shape, same
entries on all valid indices) to `Dense` with the same `features`, bias
flag, and the same stored kernel/bias parameter values.  (`Dense`
additionally casts to its `dtype` argument, which leaves the exact
values unchanged, and `precision` is a pass-through for both.) -/
theorem dense_general_specializes_dense
    (store : ParamStore) (inputs : Tensor) (features : Nat) (bias : Bool)
    (dtype : DType) (kernel_init bias_init : Initializer) (K Bv : Tensor)
    (hnd : 0 < inputs.shape.length)
    (hK : store ParamName.kernel = some K)
    (hKs : K.shape.length = 2)
    (hB : store ParamName.bias = some Bv)
    (hBs : Bv.shape = [features]) :
    ∃ out, DenseGeneral.apply store inputs [features] [-1] [] bias kernel_init bias_init
        = .ok out ∧
      out.SameValues (Dense.apply store inputs features bias dtype kernel_init bias_init) := by
  obtain ⟨m, hm⟩ : ∃ m, inputs.shape.length = m + 1 := ⟨inputs.shape.length - 1, by omega⟩
  have hm1 : inputs.shape.length - 1 = m := by omega
  have hax : _normalize_axes [-1] inputs.ndim = [(m : Int)] := by
    simp only [_normalize_axes, List.map_cons, List.map_nil, Tensor.ndim, hm]
    norm_num
  have hCO : DenseGeneral.contractionOut store inputs [features] [-1] [] kernel_init
      = dot_general inputs K [m] [0] [] [] := by
    simp only [DenseGeneral.contractionOut, DenseGeneral.kernelParam, param, hK, hax]
    norm_num [_normalize_axes]
    rfl
  have hDdot : Dense.apply store inputs features false dtype kernel_init bias_init
      = dot_general (asarray inputs dtype) (asarray K dtype) [m] [0] [] [] := by
    rw [dense_apply_no_bias store inputs features dtype kernel_init bias_init K hK, hm1]
  have hdotS : (dot_general inputs K [m] [0] [] []).shape
      = (dot_general (asarray inputs dtype) (asarray K dtype) [m] [0] [] []).shape := rfl
  have hdotD : ∀ idx, (dot_general inputs K [m] [0] [] []).data idx
      = (dot_general (asarray inputs dtype) (asarray K dtype) [m] [0] [] []).data idx :=
    fun _ => rfl
  cases bias with
  | false =>
    refine ⟨DenseGeneral.contractionOut store inputs [features] [-1] [] kernel_init,
      by simp [DenseGeneral.apply], ?_⟩
    rw [hCO, hDdot]
    exact ⟨rfl, fun idx _ => rfl⟩
  | true =>
    refine ⟨add (DenseGeneral.contractionOut store inputs [features] [-1] [] kernel_init)
      (DenseGeneral.expandedBias store inputs [features] [-1] [] bias_init),
      by simp [DenseGeneral.apply], ?_⟩
    have hEB : DenseGeneral.expandedBias store inputs [features] [-1] [] bias_init
        = (List.range m).foldl expand_dims Bv := by
      have hbn : _normalize_axes [] inputs.ndim = [] := rfl
      have hnd2 : inputs.ndim = m + 1 := by
        rw [Tensor.ndim, hm]
      simp only [DenseGeneral.expandedBias, param, hB]
      rw [hax, hbn, hnd2, freePositions_single_last]
    have hDense : Dense.apply store inputs features true dtype kernel_init bias_init
        = add (dot_general (asarray inputs dtype) (asarray K dtype) [m] [0] [] []) Bv := by
      simp only [Dense.apply, param, hK, hB, Tensor.ndim, asarray_shape, hm1, if_true]
    rw [hCO, hEB, hDense]
    have hfold := foldl_expand_dims_range Bv m
    have hexpS : ((List.range m).foldl expand_dims Bv).shape
        = List.replicate m 1 ++ [features] := by
      rw [hfold.1, hBs]
    have hdshape := (dot_general_lastAxis inputs K m hm hKs).1
    have hdlen : (dot_general inputs K [m] [0] [] []).shape.length = m + 1 := by
      rw [hdshape]
      simp
      omega
    have hpad : padOnes (m + 1) [features] = List.replicate m 1 ++ [features] := by
      simp [padOnes]
    have hmax1 : max (m + 1) (m + 1 : Nat) = m + 1 := by omega
    have hmax2 : max (m + 1) (1 : Nat) = m + 1 := by omega
    have hp1 : padOnes (m + 1) (List.replicate m 1 ++ [features])
        = List.replicate m 1 ++ [features] := by
      simp [padOnes]
    have hshape_eq : (add (dot_general inputs K [m] [0] [] [])
        ((List.range m).foldl expand_dims Bv)).shape
        = (add (dot_general (asarray inputs dtype) (asarray K dtype) [m] [0] [] []) Bv).shape := by
      show bcastShape (dot_general inputs K [m] [0] [] []).shape
          ((List.range m).foldl expand_dims Bv).shape
          = bcastShape (dot_general (asarray inputs dtype) (asarray K dtype) [m] [0] [] []).shape
            Bv.shape
      rw [← hdotS, hexpS, hBs]
      simp only [bcastShape, hdlen, List.length_append, List.length_replicate,
        List.length_singleton, List.length_cons, List.length_nil]
      rw [hmax1, hmax2, hp1, hpad]
    refine ⟨hshape_eq, ?_⟩
    intro idx hidx
    have hivalid := mem_allIndices.mp hidx
    have houtlen : (add (dot_general inputs K [m] [0] [] [])
        ((List.range m).foldl expand_dims Bv)).shape.length = m + 1 := by
      show (bcastShape (dot_general inputs K [m] [0] [] []).shape
        ((List.range m).foldl expand_dims Bv).shape).length = m + 1
      rw [hexpS]
      simp only [bcastShape, hdlen, List.length_append, List.length_replicate,
        List.length_singleton, hmax1, hp1]
      rw [List.length_zipWith]
      simp [padOnes, hdlen]
    have hilen : idx.length = m + 1 := by
      rw [forall₂_lt_length hivalid]
      exact houtlen
    have hbi : (bcastIdx idx ((List.range m).foldl expand_dims Bv).shape).drop m
        = bcastIdx idx Bv.shape := by
      rw [hexpS, hBs]
      simp only [bcastIdx, List.length_append, List.length_replicate, List.length_singleton,
        List.length_cons, List.length_nil, hilen]
      rw [← List.map_drop, zip_drop]
      have h1 : (m + 1) - (m + 1) = 0 := by omega
      have h2 : (m + 1) - 1 = m := by omega
      rw [h1, h2, List.drop_zero]
      congr 1
      rw [List.drop_append_of_le_length (by simp)]
      simp
    show (dot_general inputs K [m] [0] [] []).data
        (bcastIdx idx (dot_general inputs K [m] [0] [] []).shape)
        + ((List.range m).foldl expand_dims Bv).data
          (bcastIdx idx ((List.range m).foldl expand_dims Bv).shape) = _
    rw [hfold.2, hbi]
    rfl

theorem dense_general_specializes_dense_witness :
    (0 < ([2, 3] : List Nat).length) ∧
    (∃ out, DenseGeneral.apply wStore wInputs2 [4] [-1] [] true wInit wInit = .ok out ∧
      out.SameValues (Dense.apply wStore wInputs2 4 true DType.float32 wInit wInit)) :=
  ⟨by decide,
   dense_general_specializes_dense wStore wInputs2 4 true DType.float32 wInit wInit
     wKernel34 wBias4 (by decide) rfl rfl rfl rfl⟩

/-! ## C6: DenseGeneral kernel shape and per-batch-slice initialization -/

theorem concatData_replicate (t : Tensor) (a : Nat) (ht : t.shape.headD 0 = a) :
    ∀ (mcount q : Nat) (rest : List Nat), q < mcount * a →
      concatData (List.replicate mcount t) (q :: rest) = t.data ((q % a) :: rest) := by
  intro mcount
  induction mcount with
  | zero =>
    intro q rest h
    simp at h
  | succ mm ih =>
    intro q rest h
    rw [List.replicate_succ]
    show (if (q :: rest).headD 0 < t.shape.headD 0 then t.data (q :: rest)
      else concatData (List.replicate mm t)
        (((q :: rest).headD 0 - t.shape.headD 0) :: (q :: rest).tail)) = _
    rw [ht]
    show (if q < a then t.data (q :: rest)
      else concatData (List.replicate mm t) ((q - a) :: rest)) = _
    by_cases hq : q < a
    · rw [if_pos hq, Nat.mod_eq_of_lt hq]
    · rw [if_neg hq]
      have ha : a ≤ q := by omega
      have hlt : q - a < mm * a := by
        have : q < mm * a + a := by
          calc q < (mm + 1) * a := h
            _ = mm * a + a := by ring
        omega
      rw [ih (q - a) rest hlt]
      rw [← Nat.mod_eq_sub_mod ha]

/-- The behaviour of `kernel_init_wrap` on a shape split as
`batch_shape ++ (contracted extents ++ features)`: the result has
exactly that shape, and the entry at `b ++ (k ++ f)` is the entry of the
single 2-D slice `kernel_init([prod K, prod F])` at the row-major
flattenings of `k` and `f` (every one of the `prod B` invocations of
`kernel_init` receives the same rng, so every batch slice is the
corresponding invocation's result). -/
theorem kernel_init_wrap_spec (init : Initializer) (B K F : List Nat)
    (hinit : ∀ s, (init s).shape = s) (hnf : F ≠ []) :
    (kernel_init_wrap init B.length K.length F.length (B ++ (K ++ F))).shape
      = B ++ (K ++ F) ∧
    ∀ b k f, List.Forall₂ (· < ·) b B → List.Forall₂ (· < ·) k K →
      List.Forall₂ (· < ·) f F →
      (kernel_init_wrap init B.length K.length F.length (B ++ (K ++ F))).data (b ++ (k ++ f))
        = (init [K.prod, F.prod]).data [toFlat K k, toFlat F f] := by
  have hsb : ((B ++ (K ++ F)).take B.length).prod = B.prod := by
    rw [List.take_left]
  have hflat1 : (((B ++ (K ++ F)).drop B.length).take K.length).prod = K.prod := by
    rw [List.drop_left, List.take_left]
  have hflat2 : (pyLastSlice F.length (B ++ (K ++ F))).prod = F.prod := by
    unfold pyLastSlice
    have hF0 : F.length ≠ 0 := by
      intro hc
      exact hnf (List.length_eq_zero.mp hc)
    rw [if_neg hF0]
    have hlen : (B ++ (K ++ F)).length - F.length = (B ++ K).length := by
      simp
      omega
    rw [hlen, ← List.append_assoc, List.drop_left]
  constructor
  · rfl
  · intro b k f hb hk hf
    have hKP : 0 < K.prod := prod_pos_of_forall₂ hk
    have hFP : 0 < F.prod := prod_pos_of_forall₂ hf
    have hSB : 0 < B.prod := prod_pos_of_forall₂ hb
    show (reshape (concat0 ((List.range ((B ++ (K ++ F)).take B.length).prod).map
      fun _ => init [(((B ++ (K ++ F)).drop B.length).take K.length).prod,
        (pyLastSlice F.length (B ++ (K ++ F))).prod])) (B ++ (K ++ F))).data (b ++ (k ++ f)) = _
    rw [hsb, hflat1, hflat2]
    have hmapc : (List.range B.prod).map (fun _ => init [K.prod, F.prod])
        = List.replicate B.prod (init [K.prod, F.prod]) := by
      rw [List.map_const']
      rw [List.length_range]
    rw [hmapc]
    set t := init [K.prod, F.prod] with hts
    have htsh : t.shape = [K.prod, F.prod] := hinit _
    -- the concatenated tensor has shape [B.prod * K.prod, F.prod]
    have hcsh : (concat0 (List.replicate B.prod t)).shape = [B.prod * K.prod, F.prod] := by
      simp only [concat0, List.map_replicate, htsh, List.headD_cons]
      rw [List.sum_replicate, smul_eq_mul]
      obtain ⟨sb, hsb'⟩ : ∃ sb, B.prod = sb + 1 := ⟨B.prod - 1, by omega⟩
      rw [hsb', List.replicate_succ]
      simp [htsh]
    show (concat0 (List.replicate B.prod t)).data
      (fromFlat (concat0 (List.replicate B.prod t)).shape
        (toFlat (B ++ (K ++ F)) (b ++ (k ++ f)))) = _
    rw [hcsh]
    have htb := toFlat_lt hb
    have htk := toFlat_lt hk
    have htf := toFlat_lt hf
    have hN : toFlat (B ++ (K ++ F)) (b ++ (k ++ f))
        = F.prod * (toFlat B b * K.prod + toFlat K k) + toFlat F f := by
      rw [toFlat_append (forall₂_lt_length hb),
        toFlat_append (forall₂_lt_length hk), List.prod_append]
      ring
    rw [hN]
    show (concat0 (List.replicate B.prod t)).data
      ((F.prod * (toFlat B b * K.prod + toFlat K k) + toFlat F f) / [F.prod].prod
        :: fromFlat [F.prod]
          ((F.prod * (toFlat B b * K.prod + toFlat K k) + toFlat F f) % [F.prod].prod)) = _
    have hp1 : ([F.prod] : List Nat).prod = F.prod := by simp
    rw [hp1]
    rw [Nat.mul_add_div hFP, Nat.mul_add_mod]
    rw [Nat.div_eq_of_lt htf, Nat.add_zero, Nat.mod_eq_of_lt htf]
    show concatData (List.replicate B.prod t)
      ((toFlat B b * K.prod + toFlat K k) :: fromFlat [F.prod] (toFlat F f)) = _
    have hq : toFlat B b * K.prod + toFlat K k < B.prod * K.prod := by
      calc toFlat B b * K.prod + toFlat K k
          < toFlat B b * K.prod + K.prod := by omega
        _ = (toFlat B b + 1) * K.prod := by ring
        _ ≤ B.prod * K.prod := Nat.mul_le_mul_right _ (by omega)
    rw [concatData_replicate t K.prod (by rw [htsh]; rfl) B.prod _ _ hq]
    have hmod : (toFlat B b * K.prod + toFlat K k) % K.prod = toFlat K k := by
      rw [Nat.mul_comm (toFlat B b) K.prod, Nat.mul_add_mod, Nat.mod_eq_of_lt htk]
    rw [hmod]
    show t.data [toFlat K k, toFlat F f / [].prod] = _
    simp

/-- **C6.** For a `DenseGeneral` call whose kernel parameter is created
(no stored value), the kernel has shape
`batch_shape ++ (contracted extents ++ features)` and its initializer
builds it by invoking `kernel_init` once per flattened batch index with
the 2-D flattened shape `(prod of contracted extents, prod of
features)`, concatenating along axis 0 and reshaping: the entry at
`b ++ (k ++ f)` is the entry of the invoked slice at the row-major
flattenings of `k` and `f`. -/
theorem denseGeneral_kernel_param (store : ParamStore) (inputs : Tensor)
    (features : List Nat) (axis batch_dims : List Int) (kernel_init : Initializer)
    (hstore : store ParamName.kernel = none)
    (hinit : ∀ s, (kernel_init s).shape = s)
    (hnf : features ≠ []) :
    (DenseGeneral.kernelParam store inputs features axis batch_dims kernel_init).shape
      = shapeAt inputs (_normalize_axes batch_dims inputs.ndim)
        ++ (shapeAt inputs (_normalize_axes axis inputs.ndim) ++ features) ∧
    ∀ b k f,
      List.Forall₂ (· < ·) b (shapeAt inputs (_normalize_axes batch_dims inputs.ndim)) →
      List.Forall₂ (· < ·) k (shapeAt inputs (_normalize_axes axis inputs.ndim)) →
      List.Forall₂ (· < ·) f features →
      (DenseGeneral.kernelParam store inputs features axis batch_dims kernel_init).data
          (b ++ (k ++ f))
        = (kernel_init [(shapeAt inputs (_normalize_axes axis inputs.ndim)).prod,
            features.prod]).data
            [toFlat (shapeAt inputs (_normalize_axes axis inputs.ndim)) k,
             toFlat features f] := by
  have hBlen : (shapeAt inputs (_normalize_axes batch_dims inputs.ndim)).length
      = batch_dims.length := by
    simp [shapeAt, _normalize_axes]
  have hKlen : (shapeAt inputs (_normalize_axes axis inputs.ndim)).length
      = axis.length := by
    simp [shapeAt, _normalize_axes]
  have hkp : DenseGeneral.kernelParam store inputs features axis batch_dims kernel_init
      = kernel_init_wrap kernel_init batch_dims.length axis.length features.length
        (shapeAt inputs (_normalize_axes batch_dims inputs.ndim)
          ++ (shapeAt inputs (_normalize_axes axis inputs.ndim) ++ features)) := by
    simp [DenseGeneral.kernelParam, param, hstore]
  have hspec := kernel_init_wrap_spec kernel_init
    (shapeAt inputs (_normalize_axes batch_dims inputs.ndim))
    (shapeAt inputs (_normalize_axes axis inputs.ndim))
    features hinit hnf
  rw [hBlen, hKlen] at hspec
  rw [hkp]
  exact hspec

theorem denseGeneral_kernel_param_witness :
    ((∀ s, (wInit s).shape = s) ∧ ([4] : List Nat) ≠ []) ∧
    ((DenseGeneral.kernelParam wEmptyStore wInputs2 [4] [-1] [0] wInit).shape
      = shapeAt wInputs2 (_normalize_axes [0] wInputs2.ndim)
        ++ (shapeAt wInputs2 (_normalize_axes [-1] wInputs2.ndim) ++ [4]) ∧
    ∀ b k f,
      List.Forall₂ (· < ·) b (shapeAt wInputs2 (_normalize_axes [0] wInputs2.ndim)) →
      List.Forall₂ (· < ·) k (shapeAt wInputs2 (_normalize_axes [-1] wInputs2.ndim)) →
      List.Forall₂ (· < ·) f [4] →
      (DenseGeneral.kernelParam wEmptyStore wInputs2 [4] [-1] [0] wInit).data (b ++ (k ++ f))
        = (wInit [(shapeAt wInputs2 (_normalize_axes [-1] wInputs2.ndim)).prod,
            ([4] : List Nat).prod]).data
            [toFlat (shapeAt wInputs2 (_normalize_axes [-1] wInputs2.ndim)) k,
             toFlat [4] f]) :=
  ⟨⟨fun _ => rfl, by decide⟩,
   denseGeneral_kernel_param wEmptyStore wInputs2 [4] [-1] [0] wInit rfl (fun _ => rfl)
     (by decide)⟩

/-! ## C8: normalization of negative axis indices -/

/-- **C8, counterexample.** The `batch_dims` validation runs on the raw
(pre-normalization) values, so the negative form `-2` of the leading
axis `0` of a rank-2 input is rejected with the configuration
`ValueError`, while the equivalent non-negative form `0` passes: a
`batch_dims` entry in negative form is *not* treated identically to its
non-negative form. -/
theorem denseGeneral_negative_batch_dim_rejected :
    (DenseGeneral.apply wEmptyStore wInputs2 [4] [-1] [-2] true wInit wInit
      = .error .batchDimsError) ∧
    (DenseGeneral.apply wEmptyStore wInputs2 [4] [-1] [0] true wInit wInit).isOk = true :=
  ⟨rfl, rfl⟩

/-- **C8, amended.** Negative indices in `axis` are normalized against
the input rank before use: an `axis` specification in negative form is
treated identically to its normalized non-negative form (`batch_dims`
is also passed through `_normalize_axes`, but only after the
validation, which is what the counterexample exhibits). -/
theorem denseGeneral_axis_normalization (store : ParamStore) (inputs : Tensor)
    (features : List Nat) (axis batch_dims : List Int) (bias : Bool)
    (kernel_init bias_init : Initializer)
    (h : ∀ a ∈ axis, -(inputs.ndim : Int) ≤ a) :
    DenseGeneral.apply store inputs features axis batch_dims bias kernel_init bias_init
      = DenseGeneral.apply store inputs features (_normalize_axes axis inputs.ndim)
          batch_dims bias kernel_init bias_init := by
  have hidem : _normalize_axes (_normalize_axes axis inputs.ndim) inputs.ndim
      = _normalize_axes axis inputs.ndim := by
    unfold _normalize_axes
    rw [List.map_map]
    apply List.map_congr_left
    intro a ha
    have hha := h a ha
    by_cases h0 : 0 ≤ a
    · simp [h0]
    · have h1 : 0 ≤ (inputs.ndim : Int) + a := by omega
      simp [h0, h1]
  have hlen : (_normalize_axes axis inputs.ndim).length = axis.length := by
    simp [_normalize_axes]
  simp only [DenseGeneral.apply, DenseGeneral.contractionOut, DenseGeneral.kernelParam,
    DenseGeneral.expandedBias]
  rw [hidem, hlen]

theorem denseGeneral_axis_normalization_witness :
    (∀ a ∈ ([-1] : List Int), -(wInputs2.ndim : Int) ≤ a) ∧
    (DenseGeneral.apply wStore wInputs2 [4] [-1] [] true wInit wInit
      = DenseGeneral.apply wStore wInputs2 [4] (_normalize_axes [-1] wInputs2.ndim) []
          true wInit wInit) :=
  ⟨by decide,
   denseGeneral_axis_normalization wStore wInputs2 [4] [-1] [] true wInit wInit (by decide)⟩

/-! ## C10: Dense adds its bias without a dtype cast, Conv casts -/

theorem promoteDType_self (d : DType) : promoteDType d d = d := by
  cases d <;> rfl

/-- **C10.** In `Dense` the inputs and kernel are cast to the configured
`dtype` before the contraction, but the bias is added uncast, so the
output dtype is the type promotion of `dtype` with the bias parameter's
dtype (hence not `dtype` when, e.g., a `float64` bias meets a `float32`
configuration); `Conv` casts its bias to `dtype` before adding, so a
`Conv` output, whenever the convolution primitive preserves its input
dtype, always has dtype `dtype`. -/
theorem dense_bias_dtype_promotion
    (store : ParamStore) (inputs : Tensor) (features : Nat) (dtype : DType)
    (kernel_init bias_init : Initializer) (Bv : Tensor)
    (convPrim : Tensor → Tensor → List Nat → Tensor)
    (cinputs : Tensor) (cfeatures : Nat) (kernel_size : List Nat)
    (strides : Option (List Nat)) (feature_group_count : Nat) (y : Tensor)
    (hB : store ParamName.bias = some Bv)
    (hconv : ∀ a b s, (convPrim a b s).dtype = a.dtype)
    (hok : Conv.apply convPrim store cinputs cfeatures kernel_size strides
      feature_group_count true dtype kernel_init bias_init = .ok y) :
    (Dense.apply store inputs features true dtype kernel_init bias_init).dtype
      = promoteDType dtype Bv.dtype ∧
    y.dtype = dtype := by
  have haddd : ∀ a b : Tensor, (add a b).dtype = promoteDType a.dtype b.dtype :=
    fun _ _ => rfl
  have hdotd : ∀ (a b : Tensor) lc rc lb rb,
      (dot_general a b lc rc lb rb).dtype = promoteDType a.dtype b.dtype :=
    fun _ _ _ _ _ _ => rfl
  constructor
  · simp only [Dense.apply, param, hB, if_true]
    rw [haddd, hdotd, asarray_dtype, asarray_dtype, promoteDType_self]
  · simp only [Conv.apply] at hok
    split at hok
    · cases hok
    · have hy := Except.ok.inj hok
      simp only [if_true] at hy
      rw [← hy, haddd, hconv, asarray_dtype, asarray_dtype, promoteDType_self]

/-- The convolution primitive used in the witness: returns its (cast)
input, hence preserves the input dtype. -/
def wConvPrim : Tensor → Tensor → List Nat → Tensor := fun a _ _ => a

/-- The output of the concrete `Conv` call of the witness. -/
def wConvOut : Tensor :=
  match Conv.apply wConvPrim wStore wInputs2 4 [3] none 1 true .float32 wInit wInit with
  | .ok t => t
  | .error _ => default

theorem dense_bias_dtype_promotion_witness :
    ((wStore ParamName.bias = some wBias4) ∧
     (∀ a b s, (wConvPrim a b s).dtype = a.dtype) ∧
     (Conv.apply wConvPrim wStore wInputs2 4 [3] none 1 true .float32 wInit wInit
       = .ok wConvOut)) ∧
    ((Dense.apply wStore wInputs2 4 true DType.float32 wInit wInit).dtype
        = promoteDType DType.float32 wBias4.dtype ∧
      wConvOut.dtype = DType.float32) :=
  ⟨⟨rfl, fun _ _ _ => rfl, rfl⟩,
   dense_bias_dtype_promotion wStore wInputs2 4 DType.float32 wInit wInit wBias4
     wConvPrim wInputs2 4 [3] none 1 wConvOut rfl (fun _ _ _ => rfl) rfl⟩

/-! ## C7: helper lemmas for the bias broadcast of DenseGeneral -/

theorem take_eraseIdx_of_le {α : Type} (l : List α) (i q : Nat) (h : q ≤ i) :
    (l.eraseIdx i).take q = l.take q := by
  induction l generalizing i q with
  | nil => rfl
  | cons a l ih =>
    cases i with
    | zero =>
      have hq : q = 0 := by omega
      subst hq
      rfl
    | succ i' =>
      cases q with
      | zero => rfl
      | succ q' =>
        show a :: (l.eraseIdx i').take q' = a :: l.take q'
        rw [ih i' q' (by omega)]

theorem zip_take {α β : Type} (l : List α) (l' : List β) (n : Nat) :
    (l.zip l').take n = (l.take n).zip (l'.take n) := by
  induction n generalizing l l' with
  | zero => rfl
  | succ k ih =>
    cases l with
    | nil => simp
    | cons a l =>
      cases l' with
      | nil => simp
      | cons b l' => simp [List.zip_cons_cons, ih]

theorem zipWith_bcast_self (l : List Nat) :
    l.zipWith (fun a b => if a = 1 then b else a) l = l := by
  induction l with
  | nil => rfl
  | cons a l ih => simp [ih]

theorem zipWith_bcast_ones (l : List Nat) :
    l.zipWith (fun a b => if a = 1 then b else a) (List.replicate l.length 1) = l := by
  induction l with
  | nil => rfl
  | cons a l ih =>
    show (if a = 1 then 1 else a) :: _ = _
    rw [ih]
    by_cases h : a = 1
    · rw [if_pos h, h]
    · rw [if_neg h]

theorem zip_bcast_map_valid {u v : List Nat} (h : List.Forall₂ (· < ·) u v) :
    (u.zip v).map (fun p => if p.2 = 1 then 0 else p.1) = u := by
  induction h with
  | nil => rfl
  | @cons i d u' v' hid _ ih =>
    rw [List.zip_cons_cons, List.map_cons, ih]
    show (if d = 1 then 0 else i) :: u' = i :: u'
    by_cases h1 : d = 1
    · rw [if_pos h1]
      have : i = 0 := by omega
      rw [this]
    · rw [if_neg h1]

theorem bcastIdx_valid {idx s : List Nat} (h : List.Forall₂ (· < ·) idx s) :
    bcastIdx idx s = idx := by
  unfold bcastIdx
  rw [forall₂_lt_length h, Nat.sub_self, List.drop_zero]
  exact zip_bcast_map_valid h

theorem padOnes_self (s : List Nat) : padOnes s.length s = s := by
  simp [padOnes]

theorem filter_range_three (nb m na : Nat) (p : Nat → Bool)
    (h1 : ∀ i, i < nb → p i = false)
    (h2 : ∀ i, nb ≤ i → i < nb + m → p i = true)
    (h3 : ∀ i, nb + m ≤ i → i < nb + m + na → p i = false) :
    (List.range (nb + m + na)).filter p = List.range' nb m := by
  have hsplit : List.range (nb + m + na)
      = (List.range' 0 nb ++ List.range' nb m) ++ List.range' (nb + m) na := by
    rw [List.range_eq_range']
    have e1 : List.range' 0 nb ++ List.range' (0 + 1 * nb) m = List.range' 0 (m + nb) :=
      List.range'_append 0 nb m 1
    have e2 : List.range' 0 (m + nb) ++ List.range' (0 + 1 * (m + nb)) na
        = List.range' 0 (na + (m + nb)) := List.range'_append 0 (m + nb) na 1
    simp only [Nat.zero_add, Nat.one_mul] at e1 e2
    rw [show nb + m + na = na + (m + nb) by omega, ← e2, ← e1, Nat.add_comm m nb]
  rw [hsplit, List.filter_append, List.filter_append]
  have hf1 : (List.range' 0 nb).filter p = [] := by
    refine List.filter_eq_nil_iff.mpr ?_
    intro a ha
    rw [List.mem_range'] at ha
    obtain ⟨i, hi, rfl⟩ := ha
    rw [h1 _ (by omega)]
    simp
  have hf2 : (List.range' nb m).filter p = List.range' nb m := by
    refine List.filter_eq_self.mpr ?_
    intro a ha
    rw [List.mem_range'] at ha
    obtain ⟨i, hi, rfl⟩ := ha
    exact h2 _ (by omega) (by omega)
  have hf3 : (List.range' (nb + m) na).filter p = [] := by
    refine List.filter_eq_nil_iff.mpr ?_
    intro a ha
    rw [List.mem_range'] at ha
    obtain ⟨i, hi, rfl⟩ := ha
    rw [h3 _ (by omega) (by omega)]
    simp
  rw [hf1, hf2, hf3, List.nil_append, List.append_nil]

theorem range'_map_getD (l : List Nat) (s n : Nat) (h : s + n ≤ l.length) :
    (List.range' s n).map (fun i => l.getD i 0) = (l.drop s).take n := by
  apply List.ext_getElem
  · simp
    omega
  · intro i h1 h2
    have hi : i < n := by simpa using h1
    simp only [List.getElem_map, List.getElem_range', List.getElem_take, List.getElem_drop]
    rw [List.getD_eq_getElem _ 0 (by omega)]
    congr 1
    omega

/-- Sequentially expanding singleton axes at the consecutive ascending
positions `q, q+1, …, q+mcount-1` inserts `mcount` singleton extents at
position `q` of the shape, and entry lookup removes the coordinates at
those positions. -/
theorem foldl_expand_dims_range' (t : Tensor) (q : Nat) (hq : q ≤ t.shape.length) :
    ∀ mcount : Nat,
      ((List.range' q mcount).foldl expand_dims t).shape
        = t.shape.take q ++ (List.replicate mcount 1 ++ t.shape.drop q) ∧
      ∀ idx, ((List.range' q mcount).foldl expand_dims t).data idx
        = t.data (idx.take q ++ idx.drop (q + mcount)) := by
  intro mcount
  induction mcount with
  | zero =>
    constructor
    · simp
    · intro idx
      show t.data idx = t.data (idx.take q ++ idx.drop (q + 0))
      rw [Nat.add_zero, List.take_append_drop]
  | succ mc ih =>
    have hrange : List.range' q (mc + 1) = List.range' q mc ++ [q + mc] := by
      have hrc := @List.range'_concat 1 q mc
      simpa using hrc
    rw [hrange, List.foldl_append, List.foldl_cons, List.foldl_nil]
    constructor
    · show List.insertIdx (q + mc) 1 ((List.range' q mc).foldl expand_dims t).shape = _
      rw [ih.1]
      have hlen : q + mc = (t.shape.take q ++ List.replicate mc 1).length := by
        simp
        omega
      rw [← List.append_assoc, hlen, insertIdx_at_length, List.append_assoc]
      congr 1
      rw [List.replicate_succ']
      simp
    · intro idx
      show ((List.range' q mc).foldl expand_dims t).data (idx.eraseIdx (q + mc)) = _
      rw [ih.2]
      rw [take_eraseIdx_of_le _ _ _ (by omega), drop_eraseIdx_self]
      rw [show q + (mc + 1) = q + mc + 1 by omega]

theorem mem_map_toNat_iff {l : List Int} (h : ∀ a ∈ l, 0 ≤ a) (i : Nat) :
    i ∈ l.map Int.toNat ↔ (i : Int) ∈ l := by
  rw [List.mem_map]
  constructor
  · rintro ⟨a, ha, rfl⟩
    rwa [Int.toNat_of_nonneg (h a ha)]
  · intro hmem
    exact ⟨(i : Int), hmem, by simp⟩

theorem normalize_axes_of_nonneg {l : List Int} (n : Nat) (h : ∀ a ∈ l, 0 ≤ a) :
    _normalize_axes l n = l := by
  unfold _normalize_axes
  have h2 : l.map (fun ax => if 0 ≤ ax then ax else (n : Int) + ax) = l.map id :=
    List.map_congr_left fun a ha => if_pos (h a ha)
  rw [h2, List.map_id]

theorem foldl_max_range_cast (k : Nat) :
    List.foldl max (0 : Int) ((List.range (k + 1)).map Int.ofNat) = (k : Int) := by
  induction k with
  | zero => rfl
  | succ j ih =>
    rw [List.range_succ, List.map_append, List.foldl_append]
    simp only [List.map_cons, List.map_nil, List.foldl_cons, List.foldl_nil]
    rw [ih]
    have hle : (j : Int) ≤ ((j + 1 : Nat) : Int) := by
      exact_mod_cast Nat.le_succ j
    simp only [Int.ofNat_eq_coe]
    rw [max_eq_right hle]

/-- The canonical ascending batch_dims `(0, …, nb-1)` passes the
validation guard of `DenseGeneral.apply`. -/
theorem batchDims_canonical_guard (nb : Nat) :
    (!((List.range nb).map Int.ofNat).isEmpty
      && !batchDimsConsecutive ((List.range nb).map Int.ofNat)) = false := by
  cases nb with
  | zero => rfl
  | succ k =>
    suffices h : batchDimsConsecutive ((List.range (k + 1)).map Int.ofNat) = true by
      rw [h]
      simp
    have hhead : (((List.range (k + 1)).map Int.ofNat).headD 0) = 0 := by
      rw [List.range_succ_eq_map]
      simp
    simp only [batchDimsConsecutive]
    rw [hhead, foldl_max_range_cast]
    have htn : ((k : Int) + 1).toNat = k + 1 := by omega
    have hir : intRange ((k : Int) + 1) = (List.range (k + 1)).map Int.ofNat := by
      simp only [intRange, htn]
    rw [hir]
    simp [intSetEq, List.all_eq_true]

/-- A concrete `2 × 3 × 5` input used by the C7 counterexample. -/
def wInputs235 : Tensor := ⟨[2, 3, 5], fun _ => 0, .float32⟩

/-- **C7, counterexample.** For the call `DenseGeneral(inputs of shape
(2, 3, 5), features = (4,), axis = (1,), batch_dims = (), bias = True)`
the contraction output has shape `(2, 5, 4)` while the bias expanded by
the singleton-insertion loop has shape `(1, 4, 1)`; these are not
broadcast-compatible, so the claimed elementwise addition of the
expanded bias to the contraction output is undefined there (numpy/JAX
raises a broadcast error on `out + bias`): the claim fails for calls
whose contracted axes are not the trailing axes of the input. -/
theorem denseGeneral_bias_broadcast_mismatch :
    (DenseGeneral.contractionOut wEmptyStore wInputs235 [4] [1] [] wInit).shape = [2, 5, 4] ∧
    (DenseGeneral.expandedBias wEmptyStore wInputs235 [4] [1] [] wInit).shape = [1, 4, 1] ∧
    bcastCompat (DenseGeneral.contractionOut wEmptyStore wInputs235 [4] [1] [] wInit).shape
      (DenseGeneral.expandedBias wEmptyStore wInputs235 [4] [1] [] wInit).shape = false :=
  ⟨rfl, rfl, rfl⟩

theorem shapeAt_canonical (inputs : Tensor) (nb : Nat) (h : nb ≤ inputs.shape.length) :
    shapeAt inputs ((List.range nb).map Int.ofNat) = inputs.shape.take nb := by
  unfold shapeAt
  rw [List.map_map]
  have hco : (fun ax : Int => inputs.shape.getD ax.toNat 0) ∘ Int.ofNat
      = fun i => inputs.shape.getD i 0 := by
    funext i
    simp
  rw [hco]
  exact range_map_getD h

theorem mem_cast_range (nb i : Nat) :
    ((i : Int) ∈ (List.range nb).map Int.ofNat) ↔ i < nb := by
  rw [List.mem_map]
  constructor
  · rintro ⟨a, ha, hai⟩
    rw [List.mem_range] at ha
    have haa : a = i := by
      have hcast : ((a : Int)) = ((i : Int)) := by
        rw [← Int.ofNat_eq_coe]
        exact hai
      exact_mod_cast hcast
    omega
  · intro h
    exact ⟨i, List.mem_range.mpr h, rfl⟩

theorem cast_range_nonneg (nb : Nat) : ∀ a ∈ (List.range nb).map Int.ofNat, 0 ≤ a := by
  intro a ha
  rw [List.mem_map] at ha
  obtain ⟨i, _, rfl⟩ := ha
  simp

theorem bcastShape_eq_left_structured (A F1 F2 : List Nat) :
    bcastShape (A ++ (F1 ++ F2)) (A ++ (List.replicate F1.length 1 ++ F2))
      = A ++ (F1 ++ F2) := by
  simp only [bcastShape]
  have hlen2 : (A ++ (List.replicate F1.length 1 ++ F2)).length
      = (A ++ (F1 ++ F2)).length := by
    simp
  rw [hlen2, max_self, padOnes_self]
  have hp2 : padOnes (A ++ (F1 ++ F2)).length (A ++ (List.replicate F1.length 1 ++ F2))
      = A ++ (List.replicate F1.length 1 ++ F2) := by
    rw [← hlen2]
    exact padOnes_self _
  rw [hp2]
  rw [List.zipWith_append _ _ _ _ _ rfl]
  rw [List.zipWith_append _ _ _ _ _ (by simp)]
  rw [zipWith_bcast_self, zipWith_bcast_ones, zipWith_bcast_self]

/-- **C7, amended.** For a `DenseGeneral` call with bias enabled whose
`batch_dims` is the canonical leading block `(0, …, nb-1)` and whose
(normalized) contracted axes are exactly the trailing `na` axes of the
input, the bias parameter of shape `batch_shape ++ features` is
broadcast-expanded by inserting one singleton axis at every input axis
that is neither a batch axis nor a contracted axis (in ascending axis
order, giving shape `batch_shape ++ (1,)*m ++ features`), and the
result is added elementwise to the contraction output: at every valid
output index the output entry is the contraction entry plus the bias
entry at the batch and feature coordinates.  (For other axis choices
the expanded bias need not be broadcast-compatible with the contraction
output — see the counterexample.) -/
theorem denseGeneral_bias_broadcast
    (store : ParamStore) (inputs : Tensor) (features : List Nat)
    (axis : List Int) (nb m na : Nat)
    (kernel_init bias_init : Initializer) (Ker Bt : Tensor)
    (hm : inputs.shape.length = nb + m + na)
    (hna : axis.length = na)
    (hax_nonneg : ∀ a ∈ _normalize_axes axis inputs.ndim, 0 ≤ a)
    (haxis : ∀ i : Nat, ((i : Int) ∈ _normalize_axes axis inputs.ndim
      ↔ nb + m ≤ i ∧ i < nb + m + na))
    (hK : store ParamName.kernel = some Ker)
    (hKs : Ker.shape = inputs.shape.take nb
      ++ (shapeAt inputs (_normalize_axes axis inputs.ndim) ++ features))
    (hB : store ParamName.bias = some Bt)
    (hBts : Bt.shape = inputs.shape.take nb ++ features) :
    ∃ out, DenseGeneral.apply store inputs features axis ((List.range nb).map Int.ofNat)
        true kernel_init bias_init = .ok out ∧
      out.shape = (DenseGeneral.contractionOut store inputs features axis
        ((List.range nb).map Int.ofNat) kernel_init).shape ∧
      (DenseGeneral.expandedBias store inputs features axis
        ((List.range nb).map Int.ofNat) bias_init).shape
        = inputs.shape.take nb ++ (List.replicate m 1 ++ features) ∧
      ∀ idx ∈ allIndices out.shape,
        out.data idx = (DenseGeneral.contractionOut store inputs features axis
            ((List.range nb).map Int.ofNat) kernel_init).data idx
          + Bt.data (idx.take nb ++ idx.drop (nb + m)) := by
  have hndim : inputs.ndim = nb + m + na := by
    rw [Tensor.ndim, hm]
  have hnble : nb ≤ inputs.shape.length := by omega
  have hA : (inputs.shape.take nb).length = nb := by
    rw [List.length_take, hm]
    omega
  have haxlen : (_normalize_axes axis inputs.ndim).length = na := by
    simp [_normalize_axes, hna]
  have hKx : (shapeAt inputs (_normalize_axes axis inputs.ndim)).length = na := by
    simp [shapeAt, haxlen]
  have hbn : _normalize_axes ((List.range nb).map Int.ofNat) inputs.ndim
      = (List.range nb).map Int.ofNat := normalize_axes_of_nonneg _ (cast_range_nonneg nb)
  have hcb_len : ((List.range nb).map Int.ofNat).length = nb := by simp
  -- the positions of the singleton insertions are the free input axes nb, …, nb+m-1
  have hfp_gen : ∀ L : List Int, (∀ i : Nat, ((i : Int) ∈ L ↔ nb + m ≤ i ∧ i < nb + m + na)) →
      freePositions L ((List.range nb).map Int.ofNat) inputs.ndim = List.range' nb m := by
    intro L hL
    unfold freePositions
    rw [hndim]
    apply filter_range_three
    · intro i hi
      have hin : ((i : Int)) ∈ (List.range nb).map Int.ofNat := (mem_cast_range nb i).mpr hi
      simp [hin]
    · intro i h1 h2
      have hnax : ¬ ((i : Int)) ∈ L := by
        rw [hL i]
        omega
      have hncb : ¬ ((i : Int)) ∈ (List.range nb).map Int.ofNat := by
        rw [mem_cast_range]
        omega
      simp [hnax, hncb]
    · intro i h1 h2
      have hin : ((i : Int)) ∈ L := (hL i).mpr ⟨h1, h2⟩
      simp [hin]
  have hfp : freePositions (_normalize_axes axis inputs.ndim)
      ((List.range nb).map Int.ofNat) inputs.ndim = List.range' nb m :=
    hfp_gen _ haxis
  have hEB : DenseGeneral.expandedBias store inputs features axis
      ((List.range nb).map Int.ofNat) bias_init
      = (List.range' nb m).foldl expand_dims Bt := by
    simp only [DenseGeneral.expandedBias, param, hB]
    rw [hbn, hfp]
  have hqB : nb ≤ Bt.shape.length := by
    rw [hBts, List.length_append, hA]
    omega
  have hfold := foldl_expand_dims_range' Bt nb hqB m
  have hBtake : Bt.shape.take nb = inputs.shape.take nb := by
    have h1 := List.take_left (inputs.shape.take nb) features
    rw [hA] at h1
    rw [hBts, h1]
  have hBdrop : Bt.shape.drop nb = features := by
    have h1 := List.drop_left (inputs.shape.take nb) features
    rw [hA] at h1
    rw [hBts, h1]
  have hEshape : ((List.range' nb m).foldl expand_dims Bt).shape
      = inputs.shape.take nb ++ (List.replicate m 1 ++ features) := by
    rw [hfold.1, hBtake, hBdrop]
  -- the contraction output
  have hCOker : DenseGeneral.kernelParam store inputs features axis
      ((List.range nb).map Int.ofNat) kernel_init = Ker := by
    simp [DenseGeneral.kernelParam, param, hK]
  have hlb : (_normalize_axes ((List.range nb).map Int.ofNat) inputs.ndim).map Int.toNat
      = List.range nb := by
    rw [hbn, List.map_map]
    have hco : Int.toNat ∘ Int.ofNat = id := by
      funext i
      simp
    rw [hco, List.map_id]
  have hCO : DenseGeneral.contractionOut store inputs features axis
      ((List.range nb).map Int.ofNat) kernel_init
      = dot_general inputs Ker ((_normalize_axes axis inputs.ndim).map Int.toNat)
          ((List.range na).map (· + nb)) (List.range nb) (List.range nb) := by
    simp only [DenseGeneral.contractionOut]
    rw [hCOker, hlb, hna, hcb_len]
  have hlcmem : ∀ i : Nat, i ∈ (_normalize_axes axis inputs.ndim).map Int.toNat
      ↔ (nb + m ≤ i ∧ i < nb + m + na) := fun i =>
    (mem_map_toNat_iff hax_nonneg i).trans (haxis i)
  have hnf : features.length = features.length := rfl
  have hKerLen : Ker.shape.length = nb + na + features.length := by
    rw [hKs]
    simp only [List.length_append]
    rw [hA, hKx]
    omega
  have hrmap : (List.range' (nb + na) features.length).map (fun i => Ker.shape.getD i 0)
      = features := by
    rw [range'_map_getD _ _ _ (by omega)]
    have h1 := List.drop_left
      (inputs.shape.take nb ++ shapeAt inputs (_normalize_axes axis inputs.ndim)) features
    rw [List.length_append, hA, hKx] at h1
    rw [hKs, ← List.append_assoc, h1]
    simp
  have hdshape : (dot_general inputs Ker ((_normalize_axes axis inputs.ndim).map Int.toNat)
        ((List.range na).map (· + nb)) (List.range nb) (List.range nb)).shape
      = inputs.shape.take nb ++ (((List.range' nb m).map fun i => inputs.shape.getD i 0)
        ++ features) := by
    simp only [dot_general]
    have hc1 : (List.range nb).map (fun i => inputs.shape.getD i 0) = inputs.shape.take nb :=
      range_map_getD hnble
    have hfree_gen : ∀ L : List Nat, (∀ i, (i ∈ L ↔ nb + m ≤ i ∧ i < nb + m + na)) →
        (List.range inputs.ndim).filter
          (fun i => decide (i ∉ List.range nb) && decide (i ∉ L))
          = List.range' nb m := by
      intro L hL
      rw [hndim]
      apply filter_range_three
      · intro i hi
        have hin : i ∈ List.range nb := List.mem_range.mpr hi
        simp [hin]
      · intro i h1 h2
        have h3 : i ∉ List.range nb := by
          rw [List.mem_range]
          omega
        have h4 : i ∉ L := by
          rw [hL i]
          omega
        simp [h3, h4]
      · intro i h1 h2
        have h3 : i ∈ L := by
          rw [hL i]
          exact ⟨h1, h2⟩
        simp [h3]
    have hfree := hfree_gen _ hlcmem
    have hrfree : (List.range Ker.ndim).filter
        (fun i => decide (i ∉ List.range nb) && decide (i ∉ (List.range na).map (· + nb)))
        = List.range' (nb + na) features.length := by
      rw [Tensor.ndim, hKerLen,
        show nb + na + features.length = (nb + na) + features.length + 0 by omega]
      apply filter_range_three
      · intro i hi
        by_cases hc : i < nb
        · have hin : i ∈ List.range nb := List.mem_range.mpr hc
          simp [hin]
        · have hin : i ∈ (List.range na).map (· + nb) := by
            rw [List.mem_map]
            exact ⟨i - nb, List.mem_range.mpr (by omega), by omega⟩
          simp [hin]
      · intro i h1 h2
        have h3 : i ∉ List.range nb := by
          rw [List.mem_range]
          omega
        have h4 : i ∉ (List.range na).map (· + nb) := by
          rw [List.mem_map]
          push_neg
          intro j hj
          rw [List.mem_range] at hj
          omega
        simp [h3, h4]
      · intro i h1 h2
        omega
    rw [hc1, hfree, hrfree, hrmap, List.append_assoc]
  set F1 := (List.range' nb m).map (fun i => inputs.shape.getD i 0) with hF1def
  have hF1len : F1.length = m := by
    simp [hF1def]
  have houtshape : (add (DenseGeneral.contractionOut store inputs features axis
        ((List.range nb).map Int.ofNat) kernel_init)
      ((List.range' nb m).foldl expand_dims Bt)).shape
      = (DenseGeneral.contractionOut store inputs features axis
        ((List.range nb).map Int.ofNat) kernel_init).shape := by
    show bcastShape (DenseGeneral.contractionOut store inputs features axis
        ((List.range nb).map Int.ofNat) kernel_init).shape
      ((List.range' nb m).foldl expand_dims Bt).shape = _
    rw [hCO, hdshape, hEshape]
    have hb := bcastShape_eq_left_structured (inputs.shape.take nb) F1 features
    rw [hF1len] at hb
    exact hb
  refine ⟨add (DenseGeneral.contractionOut store inputs features axis
      ((List.range nb).map Int.ofNat) kernel_init)
    ((List.range' nb m).foldl expand_dims Bt), ?_, ?_, ?_, ?_⟩
  · simp only [DenseGeneral.apply]
    rw [batchDims_canonical_guard nb]
    simp [hEB]
  · exact houtshape
  · rw [hEB]
    exact hEshape
  · intro idx hidx
    rw [houtshape, hCO, hdshape] at hidx
    have hvalid : List.Forall₂ (· < ·) idx
        (inputs.shape.take nb ++ (F1 ++ features)) := mem_allIndices.mp hidx
    have hidxlen : idx.length = nb + m + features.length := by
      rw [forall₂_lt_length hvalid]
      simp only [List.length_append]
      rw [hA, hF1len]
      omega
    have hvalid' : List.Forall₂ (· < ·) idx (DenseGeneral.contractionOut store inputs
        features axis ((List.range nb).map Int.ofNat) kernel_init).shape := by
      rw [hCO, hdshape]
      exact hvalid
    show (DenseGeneral.contractionOut store inputs features axis
        ((List.range nb).map Int.ofNat) kernel_init).data
        (bcastIdx idx (DenseGeneral.contractionOut store inputs features axis
          ((List.range nb).map Int.ofNat) kernel_init).shape)
      + ((List.range' nb m).foldl expand_dims Bt).data
        (bcastIdx idx ((List.range' nb m).foldl expand_dims Bt).shape) = _
    rw [bcastIdx_valid hvalid', hfold.2]
    congr 1
    -- the expanded-bias index: drop the m broadcast coordinates
    have hzlen : idx.length
        - (inputs.shape.take nb ++ (List.replicate m 1 ++ features)).length = 0 := by
      simp only [List.length_append, List.length_replicate]
      rw [hidxlen, hA]
      omega
    have hx : bcastIdx idx ((List.range' nb m).foldl expand_dims Bt).shape
        = (idx.zip (inputs.shape.take nb ++ (List.replicate m 1 ++ features))).map
            (fun p => if p.2 = 1 then 0 else p.1) := by
      unfold bcastIdx
      rw [hEshape, hzlen, List.drop_zero]
    rw [hx]
    have htakeCO : (inputs.shape.take nb ++ (F1 ++ features)).take nb
        = inputs.shape.take nb := by
      have h1 := List.take_left (inputs.shape.take nb) (F1 ++ features)
      rwa [hA] at h1
    have htakeE : (inputs.shape.take nb ++ (List.replicate m 1 ++ features)).take nb
        = inputs.shape.take nb := by
      have h1 := List.take_left (inputs.shape.take nb) (List.replicate m 1 ++ features)
      rwa [hA] at h1
    have hdropCO : (inputs.shape.take nb ++ (F1 ++ features)).drop (nb + m) = features := by
      have h1 := List.drop_left (inputs.shape.take nb ++ F1) features
      rw [List.length_append, hA, hF1len] at h1
      rw [← List.append_assoc, h1]
    have hdropE : (inputs.shape.take nb
        ++ (List.replicate m 1 ++ features)).drop (nb + m) = features := by
      have h1 := List.drop_left (inputs.shape.take nb ++ List.replicate m 1) features
      rw [List.length_append, hA, List.length_replicate] at h1
      rw [← List.append_assoc, h1]
    have htake : ((idx.zip (inputs.shape.take nb ++ (List.replicate m 1 ++ features))).map
        (fun p => if p.2 = 1 then 0 else p.1)).take nb = idx.take nb := by
      rw [← List.map_take, zip_take, htakeE]
      refine zip_bcast_map_valid ?_
      have h1 := List.forall₂_take nb hvalid
      rwa [htakeCO] at h1
    have hdrop : ((idx.zip (inputs.shape.take nb ++ (List.replicate m 1 ++ features))).map
        (fun p => if p.2 = 1 then 0 else p.1)).drop (nb + m) = idx.drop (nb + m) := by
      rw [← List.map_drop, zip_drop, hdropE]
      refine zip_bcast_map_valid ?_
      have h1 := List.forall₂_drop (nb + m) hvalid
      rwa [hdropCO] at h1
    rw [htake, hdrop]

/-- A concrete `2 × 5 × 4` kernel value for the C7 witness
(`batch_shape = (2,)`, contracted extent `5`, features `(4,)`). -/
def wKer254 : Tensor := ⟨[2, 5, 4], fun idx => ((toFlat [2, 5, 4] idx : Nat) : ℚ), .float32⟩

/-- A concrete `2 × 4` bias value for the C7 witness. -/
def wBt24 : Tensor := ⟨[2, 4], fun idx => ((toFlat [2, 4] idx : Nat) : ℚ), .float64⟩

/-- A store holding the concrete C7 kernel and bias. -/
def wStoreC7 : ParamStore := fun n =>
  match n with
  | ParamName.kernel => some wKer254
  | ParamName.bias => some wBt24
  | ParamName.embedding => none

theorem denseGeneral_bias_broadcast_witness :
    ((wInputs235.shape.length = 1 + 1 + 1) ∧
     (([(-1 : Int)] : List Int).length = 1) ∧
     (∀ a ∈ _normalize_axes [-1] wInputs235.ndim, 0 ≤ a) ∧
     (wKer254.shape = wInputs235.shape.take 1
        ++ (shapeAt wInputs235 (_normalize_axes [-1] wInputs235.ndim) ++ [4])) ∧
     (wBt24.shape = wInputs235.shape.take 1 ++ [4])) ∧
    (∃ out, DenseGeneral.apply wStoreC7 wInputs235 [4] [-1] ((List.range 1).map Int.ofNat)
        true wInit wInit = .ok out ∧
      out.shape = (DenseGeneral.contractionOut wStoreC7 wInputs235 [4] [-1]
        ((List.range 1).map Int.ofNat) wInit).shape ∧
      (DenseGeneral.expandedBias wStoreC7 wInputs235 [4] [-1]
        ((List.range 1).map Int.ofNat) wInit).shape
        = wInputs235.shape.take 1 ++ (List.replicate 1 1 ++ [4]) ∧
      ∀ idx ∈ allIndices out.shape,
        out.data idx = (DenseGeneral.contractionOut wStoreC7 wInputs235 [4] [-1]
            ((List.range 1).map Int.ofNat) wInit).data idx
          + wBt24.data (idx.take 1 ++ idx.drop (1 + 1))) :=
  ⟨⟨rfl, rfl, by decide, by decide, by decide⟩,
   denseGeneral_bias_broadcast wStoreC7 wInputs235 [4] [-1] 1 1 1 wInit wInit wKer254 wBt24
     rfl rfl (by decide)
     (by
       intro i
       simp [_normalize_axes, Tensor.ndim, wInputs235]
       omega)
     rfl (by decide) rfl (by decide)⟩

end FlaxLinear
